import Mathlib

/-!
Verification of core components of the local_ai_runtime gateway: the
assistant-text tool-call parser, workspace path confinement, the tool-use
orchestrator budgets, provider registry resolution and activation, the
schema-driven argument normalizer, the unsupported-tool handlers and the
Ollama streaming adapter.

The embedding follows the C++ sources under src/.  JSON values (nlohmann
json in the source) are modelled by the inductive `Json` below; JSON
numbers are modelled as integers (floating-point literals are outside the
embedding), and objects keep their members as an association list.
Strings are modelled as lists of characters (bytes in the source).
-/

namespace LocalAiRuntime

/-- JSON values as used by the runtime.  Numbers are modelled as integers
and objects as association lists in insertion order. -/
inductive Json where
  | null : Json
  | bool (b : Bool) : Json
  | num (n : Int) : Json
  | str (s : String) : Json
  | arr (elems : List Json) : Json
  | obj (members : List (String × Json)) : Json
  deriving Repr

namespace Json

/-- Membership test of a key in an object member list. -/
def keyMem (k : String) : List (String × Json) → Bool
  | [] => false
  | (k2, _) :: ms => k = k2 || keyMem k ms

/-- Model of nlohmann `contains`: false on every value that is not an
object, key membership on objects. -/
def containsKey : Json → String → Bool
  | obj ms, k => keyMem k ms
  | _, _ => false

/-- Lookup of a key in an object member list. -/
def keyFind (k : String) : List (String × Json) → Option Json
  | [] => none
  | (k2, v) :: ms => if k = k2 then some v else keyFind k ms

/-- Model of nlohmann read access `j[k]`, used only under a `containsKey`
guard in the embedded code; absent keys give `null`. -/
def getKey : Json → String → Json
  | obj ms, k => (keyFind k ms).getD null
  | _, _ => null

/-- Replace the value of a key if present, else append the pair: model of
nlohmann write access `j[k] = v` as far as key membership is concerned. -/
def setKeyList (k : String) (v : Json) : List (String × Json) → List (String × Json)
  | [] => [(k, v)]
  | (k2, w) :: ms => if k = k2 then (k, v) :: ms else (k2, w) :: setKeyList k v ms

/-- Model of nlohmann write access `j[k] = v` on an object. -/
def setKey : Json → String → Json → Json
  | obj ms, k, v => obj (setKeyList k v ms)
  | j, _, _ => j

/-- Remove a key from an object member list: model of nlohmann `erase`. -/
def eraseKeyList (k : String) : List (String × Json) → List (String × Json)
  | [] => []
  | (k2, w) :: ms => if k = k2 then eraseKeyList k ms else (k2, w) :: eraseKeyList k ms

/-- Model of nlohmann `erase` on an object. -/
def eraseKey : Json → String → Json
  | obj ms, k => obj (eraseKeyList k ms)
  | j, _ => j

def isObj : Json → Bool
  | obj _ => true
  | _ => false

def isArr : Json → Bool
  | arr _ => true
  | _ => false

def isStr : Json → Bool
  | str _ => true
  | _ => false

def isNum : Json → Bool
  | num _ => true
  | _ => false

def isBool : Json → Bool
  | bool _ => true
  | _ => false

def isNull : Json → Bool
  | null => true
  | _ => false

/-- Model of nlohmann `get&lt;std::string&gt;` under an `is_string` guard. -/
def asStr : Json → String
  | str s => s
  | _ => ""

/-- Model of nlohmann `empty()`: true on `null` and on empty containers,
false on every primitive. -/
def cppEmpty : Json → Bool
  | null => true
  | arr [] => true
  | obj [] => true
  | _ => false

end Json

/-! ### Decimal digits -/

/-- Accumulator loop printing the decimal digits of a positive number,
most significant first. -/
def natDigitsAux : Nat → List Char → List Char
  | 0, acc => acc
  | n + 1, acc => natDigitsAux ((n + 1) / 10) (Char.ofNat (48 + (n + 1) % 10) :: acc)
  decreasing_by exact Nat.div_lt_self (Nat.succ_pos n) (by omega)

/-- Decimal digit characters of a natural number. -/
def natToChars (n : Nat) : List Char :=
  if n = 0 then ['0'] else natDigitsAux n []

/-- Decimal rendering of an integer, sign included. -/
def intToChars (i : Int) : List Char :=
  if i < 0 then '-' :: natToChars i.natAbs else natToChars i.toNat

/-- Characters counted as digits by the JSON grammar. -/
def isDigitC (c : Char) : Bool := 48 ≤ c.toNat && c.toNat ≤ 57

/-- Hexadecimal digit character for a value below 16, lowercase as in the
nlohmann serializer. -/
def hexDigitChar (d : Nat) : Char :=
  if d < 10 then Char.ofNat (48 + d) else Char.ofNat (87 + d)

/-! ### The JSON serializer (nlohmann `dump()` with default options) -/

/-- Escape one character the way nlohmann `dump` does: quote, backslash
and the five short control escapes get two-character forms, remaining
control characters become a lowercase `\u00xy` sequence and every other
character is passed through. -/
def escChar (c : Char) : List Char :=
  if c = '"' then ['\\', '"']
  else if c = '\\' then ['\\', '\\']
  else if c.toNat = 8 then ['\\', 'b']
  else if c.toNat = 12 then ['\\', 'f']
  else if c = '\n' then ['\\', 'n']
  else if c.toNat = 13 then ['\\', 'r']
  else if c = '\t' then ['\\', 't']
  else if c.toNat < 32 then
    ['\\', 'u', '0', '0', hexDigitChar (c.toNat / 16), hexDigitChar (c.toNat % 16)]
  else [c]

/-- Escaped character list of a string body. -/
def escList (cs : List Char) : List Char := cs.flatMap escChar

/-- The serialized `null` literal. -/
def nullChars : List Char := ['n', 'u', 'l', 'l']

/-- The serialized `true` literal. -/
def trueChars : List Char := ['t', 'r', 'u', 'e']

/-- The serialized `false` literal. -/
def falseChars : List Char := ['f', 'a', 'l', 's', 'e']

mutual

/-- Model of nlohmann `dump()` (compact form, no indentation), producing
the character list of the serialized value. -/
def dumpChars : Json → List Char
  | .null => nullChars
  | .bool true => trueChars
  | .bool false => falseChars
  | .num i => intToChars i
  | .str s => '"' :: (escList s.data ++ ['"'])
  | .arr [] => ['[', ']']
  | .arr (e :: es) => '[' :: (dumpSep e es ++ [']'])
  | .obj [] => ['{', '}']
  | .obj (m :: ms) => '{' :: (dumpMemberSep m ms ++ ['}'])
termination_by j => sizeOf j
decreasing_by
  all_goals simp_wf
  all_goals omega

/-- Comma-separated serialization of a non-empty element list. -/
def dumpSep : Json → List Json → List Char
  | e, [] => dumpChars e
  | e, e2 :: es => dumpChars e ++ ',' :: dumpSep e2 es
termination_by e es => sizeOf e + sizeOf es
decreasing_by
  all_goals simp_wf
  all_goals omega

/-- Comma-separated serialization of a non-empty member list. -/
def dumpMemberSep : String × Json → List (String × Json) → List Char
  | (k, v), [] => '"' :: (escList k.data ++ '"' :: ':' :: dumpChars v)
  | (k, v), m :: ms =>
      ('"' :: (escList k.data ++ '"' :: ':' :: dumpChars v)) ++ ',' :: dumpMemberSep m ms
termination_by m ms => sizeOf m + sizeOf ms
decreasing_by
  all_goals simp_wf
  all_goals omega

end

/-- Model of nlohmann `dump()` returning a string. -/
def Json.dump (j : Json) : String := String.mk (dumpChars j)

/-! ### The strict JSON parser (nlohmann `parse`) -/

/-- JSON insignificant whitespace. -/
def isJsonWs (c : Char) : Bool := c = ' ' || c = '\t' || c = '\n' || c.toNat = 13

/-- Skip leading JSON whitespace. -/
def skipWs : List Char → List Char
  | [] => []
  | c :: cs => if isJsonWs c then skipWs cs else c :: cs

/-- Consume an expected literal character sequence. -/
def dropLit : List Char → List Char → Option (List Char)
  | [], cs => some cs
  | l :: ls, c :: cs => if c = l then dropLit ls cs else none
  | _ :: _, [] => none

/-- Value of a hexadecimal digit character. -/
def hexVal (c : Char) : Option Nat :=
  if 48 ≤ c.toNat ∧ c.toNat ≤ 57 then some (c.toNat - 48)
  else if 97 ≤ c.toNat ∧ c.toNat ≤ 102 then some (c.toNat - 87)
  else if 65 ≤ c.toNat ∧ c.toNat ≤ 70 then some (c.toNat - 55)
  else none

/-- Value of four hexadecimal digit characters. -/
def hex4 (a b c d : Char) : Option Nat := do
  let va ← hexVal a
  let vb ← hexVal b
  let vc ← hexVal c
  let vd ← hexVal d
  pure (((va * 16 + vb) * 16 + vc) * 16 + vd)

mutual

/-- String body scanner: consumes characters up to the closing quote,
handling the JSON escapes including `\uXXXX` with surrogate pairs, and
rejecting unescaped control characters as nlohmann does. -/
def parseStrBody : List Char → List Char → Option (String × List Char)
  | [], _ => none
  | c :: r, acc =>
    if c = '"' then some (String.mk acc.reverse, r)
    else if c = '\\' then parseEscape r acc
    else if c.toNat < 32 then none
    else parseStrBody r (c :: acc)
termination_by cs _ => cs.length
decreasing_by
  all_goals simp_wf
  all_goals omega

/-- Scanner state directly after a backslash. -/
def parseEscape : List Char → List Char → Option (String × List Char)
  | [], _ => none
  | e :: r2, acc =>
    if e = 'u' then parseHexEscape r2 acc
    else if e = '"' then parseStrBody r2 ('"' :: acc)
    else if e = '\\' then parseStrBody r2 ('\\' :: acc)
    else if e = '/' then parseStrBody r2 ('/' :: acc)
    else if e = 'b' then parseStrBody r2 (Char.ofNat 8 :: acc)
    else if e = 'f' then parseStrBody r2 (Char.ofNat 12 :: acc)
    else if e = 'n' then parseStrBody r2 ('\n' :: acc)
    else if e = 'r' then parseStrBody r2 (Char.ofNat 13 :: acc)
    else if e = 't' then parseStrBody r2 ('\t' :: acc)
    else none
termination_by cs _ => cs.length
decreasing_by
  all_goals simp_wf
  all_goals omega

/-- Scanner state directly after a `\u` escape introducer. -/
def parseHexEscape : List Char → List Char → Option (String × List Char)
  | h1 :: h2 :: h3 :: h4 :: r3, acc =>
    match hex4 h1 h2 h3 h4 with
    | none => none
    | some v =>
      if 0xD800 ≤ v ∧ v ≤ 0xDBFF then parseLowSurrogate v r3 acc
      else if 0xDC00 ≤ v ∧ v ≤ 0xDFFF then none
      else parseStrBody r3 (Char.ofNat v :: acc)
  | _, _ => none
termination_by cs _ => cs.length
decreasing_by
  all_goals simp_wf
  all_goals omega

/-- Scanner state after a high surrogate, expecting the paired low
surrogate escape. -/
def parseLowSurrogate : Nat → List Char → List Char → Option (String × List Char)
  | v, '\\' :: 'u' :: g1 :: g2 :: g3 :: g4 :: r4, acc =>
    match hex4 g1 g2 g3 g4 with
    | none => none
    | some w =>
      if 0xDC00 ≤ w ∧ w ≤ 0xDFFF then
        parseStrBody r4 (Char.ofNat (0x10000 + (v - 0xD800) * 0x400 + (w - 0xDC00)) :: acc)
      else none
  | _, _, _ => none
termination_by _ cs _ => cs.length
decreasing_by
  all_goals simp_wf
  all_goals omega

end

/-- Longest leading run of digit characters together with the remainder. -/
def takeDigits : List Char → List Char × List Char
  | [] => ([], [])
  | c :: cs =>
    if isDigitC c then
      let p := takeDigits cs
      (c :: p.1, p.2)
    else ([], c :: cs)

/-- Numeric value of a digit character list. -/
def digitsVal (ds : List Char) : Nat :=
  ds.foldl (fun acc c => acc * 10 + (c.toNat - 48)) 0

/-- Unsigned integer scanner with the JSON leading-zero restriction. -/
def parseNatPart (cs : List Char) : Option (Nat × List Char) :=
  let p := takeDigits cs
  match p.1 with
  | [] => none
  | [d] => some (digitsVal [d], p.2)
  | d :: ds =>
    if d = '0' then none else some (digitsVal (d :: ds), p.2)

/-- Integer scanner: optional minus sign then an unsigned part.  JSON
numbers are modelled as integers, so fraction and exponent suffixes are
left in the remainder (and make the enclosing parse fail). -/
def parseNum : List Char → Option (Json × List Char)
  | [] => none
  | c :: r =>
    if c = '-' then (parseNatPart r).map fun p => (.num (-(p.1 : Int)), p.2)
    else (parseNatPart (c :: r)).map fun p => (.num (p.1 : Int), p.2)

/-- Truth of a list starting with a given character. -/
def headIs (c : Char) : List Char → Bool
  | [] => false
  | d :: _ => d = c

mutual

/-- Recursive-descent JSON value scanner with explicit fuel.  Returns the
parsed value and the unconsumed remainder. -/
def parseVal : Nat → List Char → Option (Json × List Char)
  | 0, _ => none
  | Nat.succ f, cs0 =>
    match skipWs cs0 with
    | [] => none
    | c :: r =>
      if c = 'n' then (dropLit ['u', 'l', 'l'] r).map fun r2 => (.null, r2)
      else if c = 't' then (dropLit ['r', 'u', 'e'] r).map fun r2 => (.bool true, r2)
      else if c = 'f' then (dropLit ['a', 'l', 's', 'e'] r).map fun r2 => (.bool false, r2)
      else if c = '"' then (parseStrBody r []).map fun p => (.str p.1, p.2)
      else if c = '[' then
        let r2 := skipWs r
        if headIs ']' r2 then some (.arr [], r2.tail)
        else (parseElems f r2).map fun p => (.arr p.1, p.2)
      else if c = '{' then
        let r2 := skipWs r
        if headIs '}' r2 then some (.obj [], r2.tail)
        else (parseMembers f r2).map fun p => (.obj p.1, p.2)
      else parseNum (c :: r)

/-- Scanner for the elements of a non-empty array, consuming the closing
bracket. -/
def parseElems : Nat → List Char → Option (List Json × List Char)
  | 0, _ => none
  | Nat.succ f, cs =>
    match parseVal f cs with
    | none => none
    | some (v, r) =>
      let r1 := skipWs r
      if headIs ',' r1 then (parseElems f r1.tail).map fun p => (v :: p.1, p.2)
      else if headIs ']' r1 then some ([v], r1.tail)
      else none

/-- Scanner for the members of a non-empty object, consuming the closing
brace. -/
def parseMembers : Nat → List Char → Option (List (String × Json) × List Char)
  | 0, _ => none
  | Nat.succ f, cs =>
    let c0 := skipWs cs
    if headIs '"' c0 then
      match parseStrBody c0.tail [] with
      | none => none
      | some (k, r2) =>
        let c1 := skipWs r2
        if headIs ':' c1 then
          match parseVal f c1.tail with
          | none => none
          | some (v, r4) =>
            let c2 := skipWs r4
            if headIs ',' c2 then (parseMembers f c2.tail).map fun p => ((k, v) :: p.1, p.2)
            else if headIs '}' c2 then some ([(k, v)], c2.tail)
            else none
        else none
    else none

end

/-- Model of strict nlohmann `parse`: the whole input must be one JSON
value, up to surrounding whitespace. -/
def Json.parse (s : String) : Option Json :=
  match parseVal (s.length + 1) s.data with
  | some (j, r) => if skipWs r = [] then some j else none
  | none => none

/-- Truth of strict syntactic validity of a string as one JSON value. -/
def JsonValid (s : String) : Bool := (Json.parse s).isSome

/-! ### Round-trip: every serialized value parses back successfully -/

theorem toNat_eq_of_char_eq {a b : Char} (h : a = b) : a.toNat = b.toNat := by rw [h]

theorem char_ne_of_digit {c : Char} (h : isDigitC c = true) {d : Char}
    (hd : d.toNat < 48 ∨ 57 < d.toNat) : c ≠ d := by
  intro he
  have := toNat_eq_of_char_eq he
  simp [isDigitC] at h
  omega

theorem not_ws_of_digit {c : Char} (h : isDigitC c = true) : isJsonWs c = false := by
  simp [isJsonWs]
  refine ⟨⟨⟨char_ne_of_digit h (by decide), char_ne_of_digit h (by decide)⟩,
    char_ne_of_digit h (by decide)⟩, ?_⟩
  simp [isDigitC] at h
  omega

theorem skipWs_cons {c : Char} (t : List Char) (h : isJsonWs c = false) :
    skipWs (c :: t) = c :: t := by
  simp [skipWs, h]

theorem digitChar_toNat {d : Nat} (h : d < 10) : (Char.ofNat (48 + d)).toNat = 48 + d := by
  interval_cases d <;> decide

theorem isDigitC_digitChar {d : Nat} (h : d < 10) : isDigitC (Char.ofNat (48 + d)) = true := by
  interval_cases d <;> decide

theorem natDigitsAux_append (n : Nat) : ∀ acc : List Char,
    natDigitsAux n acc = natDigitsAux n [] ++ acc := by
  induction n using Nat.strong_induction_on with
  | _ n ih =>
    intro acc
    match n with
    | 0 => simp [natDigitsAux]
    | Nat.succ m =>
      rw [natDigitsAux, natDigitsAux]
      have hlt : (m + 1) / 10 < m + 1 := Nat.div_lt_self (Nat.succ_pos m) (by omega)
      rw [ih _ hlt (Char.ofNat (48 + (m + 1) % 10) :: acc),
        ih _ hlt [Char.ofNat (48 + (m + 1) % 10)]]
      simp

theorem natDigitsAux_ne_nil (n : Nat) (h : n ≠ 0) : natDigitsAux n [] ≠ [] := by
  match n with
  | 0 => exact absurd rfl h
  | Nat.succ m =>
    rw [natDigitsAux, natDigitsAux_append]
    simp

theorem natDigitsAux_digits (n : Nat) : ∀ c ∈ natDigitsAux n [], isDigitC c = true := by
  induction n using Nat.strong_induction_on with
  | _ n ih =>
    match n with
    | 0 => simp [natDigitsAux]
    | Nat.succ m =>
      rw [natDigitsAux, natDigitsAux_append]
      intro c hc
      rcases List.mem_append.mp hc with hmem | hmem
      · exact ih _ (Nat.div_lt_self (Nat.succ_pos m) (by omega)) c hmem
      · simp at hmem
        subst hmem
        exact isDigitC_digitChar (Nat.mod_lt _ (by omega))

theorem natDigitsAux_head_ne_zero (n : Nat) (h : n ≠ 0) :
    ∀ c t, natDigitsAux n [] = c :: t → c ≠ '0' := by
  induction n using Nat.strong_induction_on with
  | _ n ih =>
    match n with
    | 0 => exact absurd rfl h
    | Nat.succ m =>
      intro c t hct
      rw [natDigitsAux, natDigitsAux_append] at hct
      by_cases hq : (m + 1) / 10 = 0
      · rw [hq] at hct
        simp [natDigitsAux] at hct
        obtain ⟨hc, _⟩ := hct
        subst hc
        have hm : (m + 1) % 10 = m + 1 := by omega
        intro he
        have := toNat_eq_of_char_eq he
        rw [digitChar_toNat (by omega)] at this
        have : (m + 1) % 10 = 0 := by
          have h48 : ('0').toNat = 48 := by decide
          omega
        omega
      · obtain ⟨d, t2, hdt⟩ : ∃ d t2, natDigitsAux ((m + 1) / 10) [] = d :: t2 := by
          rcases hx : natDigitsAux ((m + 1) / 10) [] with _ | ⟨d, t2⟩
          · exact absurd hx (natDigitsAux_ne_nil _ hq)
          · exact ⟨d, t2, rfl⟩
        rw [hdt] at hct
        simp at hct
        obtain ⟨hc, _⟩ := hct
        subst hc
        exact ih _ (Nat.div_lt_self (Nat.succ_pos m) (by omega)) hq d t2 hdt

theorem natToChars_ne_nil (n : Nat) : natToChars n ≠ [] := by
  by_cases h : n = 0
  · simp [natToChars, h]
  · simp only [natToChars, if_neg h]
    exact natDigitsAux_ne_nil n h

theorem natToChars_digits (n : Nat) : ∀ c ∈ natToChars n, isDigitC c = true := by
  by_cases h : n = 0
  · simp [natToChars, h]
    decide
  · simp only [natToChars, if_neg h]
    exact natDigitsAux_digits n

theorem natToChars_no_leading_zero (n : Nat) :
    ∀ c d t, natToChars n = c :: d :: t → c ≠ '0' := by
  by_cases h : n = 0
  · simp [natToChars, h]
  · simp only [natToChars, if_neg h]
    intro c d t hct
    exact natDigitsAux_head_ne_zero n h c (d :: t) hct

/-- Shape of a remainder list that cannot extend a numeric token. -/
def NoDigitHead : List Char → Prop
  | [] => True
  | c :: _ => isDigitC c = false

theorem takeDigits_exact (ds : List Char) (rest : List Char)
    (h1 : ∀ c ∈ ds, isDigitC c = true) (h2 : NoDigitHead rest) :
    takeDigits (ds ++ rest) = (ds, rest) := by
  induction ds with
  | nil =>
    match rest with
    | [] => rfl
    | c :: t =>
      simp only [List.nil_append, takeDigits]
      rw [if_neg]
      simp [NoDigitHead] at h2
      simp [h2]
  | cons c ds ih =>
    have ih2 := ih fun x hx => h1 x (by simp [hx])
    simp only [List.cons_append, takeDigits, if_pos (h1 c (by simp)), List.append_eq, ih2]

theorem parseNatPart_of_takeDigits {cs : List Char} {ds rest : List Char}
    (htd : takeDigits cs = (ds, rest)) (hne : ds ≠ [])
    (hlz : ∀ d t, ds = '0' :: d :: t → False) :
    ∃ v, parseNatPart cs = some (v, rest) := by
  match ds, hne with
  | [d], _ =>
    exact ⟨digitsVal [d], by simp [parseNatPart, htd]⟩
  | d :: e :: t, _ =>
    have hd0 : d ≠ '0' := fun h => hlz e t (by rw [h])
    exact ⟨digitsVal (d :: e :: t), by simp [parseNatPart, htd, hd0]⟩

theorem parseNatPart_natToChars (n : Nat) (rest : List Char) (h2 : NoDigitHead rest) :
    ∃ v, parseNatPart (natToChars n ++ rest) = some (v, rest) := by
  refine parseNatPart_of_takeDigits
    (takeDigits_exact (natToChars n) rest (natToChars_digits n) h2)
    (natToChars_ne_nil n) ?_
  intro d t h
  exact natToChars_no_leading_zero n '0' d t h rfl

theorem parseNum_intToChars (i : Int) (rest : List Char) (h2 : NoDigitHead rest) :
    ∃ v, parseNum (intToChars i ++ rest) = some (v, rest) := by
  by_cases hneg : i < 0
  · obtain ⟨v, hv⟩ := parseNatPart_natToChars i.natAbs rest h2
    refine ⟨.num (-(v : Int)), ?_⟩
    simp only [intToChars, if_pos hneg, List.cons_append, parseNum, if_pos rfl, hv]
    rfl
  · obtain ⟨v, hv⟩ := parseNatPart_natToChars i.toNat rest h2
    refine ⟨.num (v : Int), ?_⟩
    obtain ⟨c, t, hx⟩ : ∃ c t, natToChars i.toNat = c :: t := by
      rcases hy : natToChars i.toNat with _ | ⟨c, t⟩
      · exact absurd hy (natToChars_ne_nil _)
      · exact ⟨c, t, rfl⟩
    have hcd : isDigitC c = true := natToChars_digits _ c (by rw [hx]; simp)
    rw [intToChars, if_neg hneg, hx, List.cons_append, parseNum,
      if_neg (char_ne_of_digit hcd (by decide)), ← List.cons_append, ← hx, hv]
    rfl

theorem hexVal_hexDigitChar {d : Nat} (h : d < 16) : hexVal (hexDigitChar d) = some d := by
  interval_cases d <;> decide

theorem parseStrBody_quote (r acc : List Char) :
    parseStrBody ('"' :: r) acc = some (String.mk acc.reverse, r) := by
  rw [parseStrBody, if_pos rfl]

theorem parseStrBody_backslash (r acc : List Char) :
    parseStrBody ('\\' :: r) acc = parseEscape r acc := by
  rw [parseStrBody, if_neg (by decide : ¬('\\' : Char) = '"'), if_pos rfl]

theorem parseStrBody_plain {c : Char} (r acc : List Char) (h1 : ¬c = '"') (h2 : ¬c = '\\')
    (h3 : ¬c.toNat < 32) : parseStrBody (c :: r) acc = parseStrBody r (c :: acc) := by
  rw [parseStrBody, if_neg h1, if_neg h2, if_neg h3]

theorem parseStrBody_escList (cs : List Char) : ∀ (acc rest : List Char),
    ∃ v, parseStrBody (escList cs ++ '"' :: rest) acc = some (v, rest) := by
  induction cs with
  | nil =>
    intro acc rest
    refine ⟨String.mk acc.reverse, ?_⟩
    simp only [escList, List.flatMap_nil, List.nil_append, parseStrBody_quote]
  | cons c cs ih =>
    intro acc rest
    have hstep : escList (c :: cs) = escChar c ++ escList cs := by
      simp [escList]
    rw [hstep, List.append_assoc]
    by_cases h1 : c = '"'
    · subst h1
      show ∃ v, parseStrBody (['\\', '"'] ++ (escList cs ++ '"' :: rest)) acc = _
      simp only [List.cons_append, List.nil_append, parseStrBody_backslash, parseEscape,
        if_neg (by decide : ¬('"' : Char) = 'u'), if_pos rfl]
      exact ih ('"' :: acc) rest
    · by_cases h2 : c = '\\'
      · subst h2
        show ∃ v, parseStrBody (['\\', '\\'] ++ (escList cs ++ '"' :: rest)) acc = _
        simp only [List.cons_append, List.nil_append, parseStrBody_backslash, parseEscape,
          if_neg (by decide : ¬('\\' : Char) = 'u'), if_neg (by decide : ¬('\\' : Char) = '"'),
          if_pos rfl]
        exact ih ('\\' :: acc) rest
      · by_cases h3 : c.toNat = 8
        · have hc : escChar c = ['\\', 'b'] := by
            simp only [escChar, if_neg h1, if_neg h2, if_pos h3]
          rw [hc]
          simp only [List.cons_append, List.nil_append, parseStrBody_backslash, parseEscape,
            if_neg (by decide : ¬('b' : Char) = 'u'), if_neg (by decide : ¬('b' : Char) = '"'),
            if_neg (by decide : ¬('b' : Char) = '\\'), if_neg (by decide : ¬('b' : Char) = '/'),
            if_pos rfl]
          exact ih (Char.ofNat 8 :: acc) rest
        · by_cases h4 : c.toNat = 12
          · have hc : escChar c = ['\\', 'f'] := by
              simp only [escChar, if_neg h1, if_neg h2, if_neg h3, if_pos h4]
            rw [hc]
            simp only [List.cons_append, List.nil_append, parseStrBody_backslash, parseEscape,
              if_neg (by decide : ¬('f' : Char) = 'u'), if_neg (by decide : ¬('f' : Char) = '"'),
              if_neg (by decide : ¬('f' : Char) = '\\'), if_neg (by decide : ¬('f' : Char) = '/'),
              if_neg (by decide : ¬('f' : Char) = 'b'), if_pos rfl]
            exact ih (Char.ofNat 12 :: acc) rest
          · by_cases h5 : c = '\n'
            · subst h5
              show ∃ v, parseStrBody (['\\', 'n'] ++ (escList cs ++ '"' :: rest)) acc = _
              simp only [List.cons_append, List.nil_append, parseStrBody_backslash, parseEscape,
                if_neg (by decide : ¬('n' : Char) = 'u'), if_neg (by decide : ¬('n' : Char) = '"'),
                if_neg (by decide : ¬('n' : Char) = '\\'), if_neg (by decide : ¬('n' : Char) = '/'),
                if_neg (by decide : ¬('n' : Char) = 'b'), if_neg (by decide : ¬('n' : Char) = 'f'),
                if_pos rfl]
              exact ih ('\n' :: acc) rest
            · by_cases h6 : c.toNat = 13
              · have hc : escChar c = ['\\', 'r'] := by
                  simp only [escChar, if_neg h1, if_neg h2, if_neg h3, if_neg h4, if_neg h5,
                    if_pos h6]
                rw [hc]
                simp only [List.cons_append, List.nil_append, parseStrBody_backslash, parseEscape,
                  if_neg (by decide : ¬('r' : Char) = 'u'),
                  if_neg (by decide : ¬('r' : Char) = '"'),
                  if_neg (by decide : ¬('r' : Char) = '\\'),
                  if_neg (by decide : ¬('r' : Char) = '/'),
                  if_neg (by decide : ¬('r' : Char) = 'b'),
                  if_neg (by decide : ¬('r' : Char) = 'f'),
                  if_neg (by decide : ¬('r' : Char) = 'n'), if_pos rfl]
                exact ih (Char.ofNat 13 :: acc) rest
              · by_cases h7 : c = '\t'
                · subst h7
                  show ∃ v, parseStrBody (['\\', 't'] ++ (escList cs ++ '"' :: rest)) acc = _
                  simp only [List.cons_append, List.nil_append, parseStrBody_backslash,
                    parseEscape,
                    if_neg (by decide : ¬('t' : Char) = 'u'),
                    if_neg (by decide : ¬('t' : Char) = '"'),
                    if_neg (by decide : ¬('t' : Char) = '\\'),
                    if_neg (by decide : ¬('t' : Char) = '/'),
                    if_neg (by decide : ¬('t' : Char) = 'b'),
                    if_neg (by decide : ¬('t' : Char) = 'f'),
                    if_neg (by decide : ¬('t' : Char) = 'n'),
                    if_neg (by decide : ¬('t' : Char) = 'r'), if_pos rfl]
                  exact ih ('\t' :: acc) rest
                · by_cases h8 : c.toNat < 32
                  · have hc : escChar c = ['\\', 'u', '0', '0', hexDigitChar (c.toNat / 16),
                        hexDigitChar (c.toNat % 16)] := by
                      simp only [escChar, if_neg h1, if_neg h2, if_neg h3, if_neg h4, if_neg h5,
                        if_neg h6, if_neg h7, if_pos h8]
                    rw [hc]
                    have hdiv : c.toNat / 16 < 16 := by omega
                    have hmod : c.toNat % 16 < 16 := by omega
                    have hv : hex4 '0' '0' (hexDigitChar (c.toNat / 16))
                        (hexDigitChar (c.toNat % 16)) = some c.toNat := by
                      simp only [hex4, hexVal_hexDigitChar hdiv, hexVal_hexDigitChar hmod,
                        show hexVal '0' = some 0 from by decide, Option.bind_eq_bind,
                        Option.some_bind, Option.pure_def]
                      congr 1
                      omega
                    have hns1 : ¬(0xD800 ≤ c.toNat ∧ c.toNat ≤ 0xDBFF) := by omega
                    have hns2 : ¬(0xDC00 ≤ c.toNat ∧ c.toNat ≤ 0xDFFF) := by omega
                    simp only [List.cons_append, List.nil_append, parseStrBody_backslash,
                      parseEscape, if_pos (rfl : ('u' : Char) = 'u'), parseHexEscape, hv,
                      if_neg hns1, if_neg hns2]
                    exact ih (Char.ofNat c.toNat :: acc) rest
                  · have hc : escChar c = [c] := by
                      simp only [escChar, if_neg h1, if_neg h2, if_neg h3, if_neg h4, if_neg h5,
                        if_neg h6, if_neg h7, if_neg h8]
                    rw [hc]
                    simp only [List.cons_append, List.nil_append]
                    rw [parseStrBody_plain _ _ h1 h2 h8]
                    exact ih (c :: acc) rest

/-! ### Head characters of serialized values -/

/-- Characters that can start a JSON token. -/
def tokStart (c : Char) : Bool :=
  c = 'n' || c = 't' || c = 'f' || c = '"' || c = '[' || c = '{' || c = '-' || isDigitC c

theorem dumpChars_null : dumpChars .null = ['n', 'u', 'l', 'l'] := by
  rw [dumpChars]; rfl

theorem dumpChars_true : dumpChars (.bool true) = ['t', 'r', 'u', 'e'] := by
  rw [dumpChars]; rfl

theorem dumpChars_false : dumpChars (.bool false) = ['f', 'a', 'l', 's', 'e'] := by
  rw [dumpChars]; rfl

theorem dumpChars_num (i : Int) : dumpChars (.num i) = intToChars i := by rw [dumpChars]

theorem dumpChars_str (s : String) :
    dumpChars (.str s) = '"' :: (escList s.data ++ ['"']) := by rw [dumpChars]

theorem dumpChars_arrNil : dumpChars (.arr []) = ['[', ']'] := by rw [dumpChars]

theorem dumpChars_arrCons (e : Json) (es : List Json) :
    dumpChars (.arr (e :: es)) = '[' :: (dumpSep e es ++ [']']) := by rw [dumpChars]

theorem dumpChars_objNil : dumpChars (.obj []) = ['{', '}'] := by rw [dumpChars]

theorem dumpChars_objCons (m : String × Json) (ms : List (String × Json)) :
    dumpChars (.obj (m :: ms)) = '{' :: (dumpMemberSep m ms ++ ['}']) := by rw [dumpChars]

theorem dumpSep_nil (e : Json) : dumpSep e [] = dumpChars e := by rw [dumpSep]

theorem dumpSep_cons (e e2 : Json) (es : List Json) :
    dumpSep e (e2 :: es) = dumpChars e ++ ',' :: dumpSep e2 es := by rw [dumpSep]

theorem dumpMemberSep_nil (k : String) (v : Json) :
    dumpMemberSep (k, v) [] = '"' :: (escList k.data ++ '"' :: ':' :: dumpChars v) := by
  rw [dumpMemberSep]

theorem dumpMemberSep_cons (k : String) (v : Json) (m : String × Json)
    (ms : List (String × Json)) :
    dumpMemberSep (k, v) (m :: ms) =
      ('"' :: (escList k.data ++ '"' :: ':' :: dumpChars v)) ++ ',' :: dumpMemberSep m ms := by
  rw [dumpMemberSep]

theorem intToChars_head (i : Int) :
    ∃ c t, intToChars i = c :: t ∧ (c = '-' ∨ isDigitC c = true) := by
  by_cases hneg : i < 0
  · exact ⟨'-', natToChars i.natAbs, by simp [intToChars, hneg], Or.inl rfl⟩
  · rcases hx : natToChars i.toNat with _ | ⟨c, t⟩
    · exact absurd hx (natToChars_ne_nil _)
    · refine ⟨c, t, by simp [intToChars, hneg, hx], Or.inr ?_⟩
      exact natToChars_digits _ c (by rw [hx]; simp)

theorem dumpChars_head (j : Json) : ∃ c t, dumpChars j = c :: t ∧ tokStart c = true := by
  cases j with
  | null => exact ⟨'n', _, dumpChars_null, by decide⟩
  | bool b =>
    cases b with
    | true => exact ⟨'t', _, dumpChars_true, by decide⟩
    | false => exact ⟨'f', _, dumpChars_false, by decide⟩
  | num i =>
    obtain ⟨c, t, hct, hcase⟩ := intToChars_head i
    refine ⟨c, t, by rw [dumpChars_num, hct], ?_⟩
    rcases hcase with rfl | hd
    · decide
    · simp [tokStart, hd]
  | str s => exact ⟨'"', _, dumpChars_str s, by decide⟩
  | arr es =>
    cases es with
    | nil => exact ⟨'[', _, dumpChars_arrNil, by decide⟩
    | cons e es => exact ⟨'[', _, dumpChars_arrCons e es, by decide⟩
  | obj ms =>
    cases ms with
    | nil => exact ⟨'{', _, dumpChars_objNil, by decide⟩
    | cons m ms => exact ⟨'{', _, dumpChars_objCons m ms, by decide⟩

theorem dumpSep_head (e : Json) (es : List Json) :
    ∃ c t, dumpSep e es = c :: t ∧ tokStart c = true := by
  obtain ⟨c, t, hct, htok⟩ := dumpChars_head e
  cases es with
  | nil => exact ⟨c, t, by rw [dumpSep_nil, hct], htok⟩
  | cons e2 es => exact ⟨c, _, by rw [dumpSep_cons, hct, List.cons_append], htok⟩

theorem tokStart_cases {c : Char} (h : tokStart c = true) :
    c = 'n' ∨ c = 't' ∨ c = 'f' ∨ c = '"' ∨ c = '[' ∨ c = '{' ∨ c = '-' ∨
      isDigitC c = true := by
  simp only [tokStart, Bool.or_eq_true, decide_eq_true_eq] at h
  tauto

theorem tokStart_not_ws {c : Char} (h : tokStart c = true) : isJsonWs c = false := by
  rcases tokStart_cases h with rfl | rfl | rfl | rfl | rfl | rfl | rfl | hd
  all_goals first
  | decide
  | exact not_ws_of_digit hd

theorem tokStart_ne_close {c : Char} (h : tokStart c = true) : c ≠ ']' ∧ c ≠ '}' := by
  rcases tokStart_cases h with rfl | rfl | rfl | rfl | rfl | rfl | rfl | hd
  all_goals first
  | exact ⟨by decide, by decide⟩
  | exact ⟨char_ne_of_digit hd (by decide), char_ne_of_digit hd (by decide)⟩

/-- Shape of a remainder that follows a complete serialized value inside a
larger serialized term. -/
def DelimOk : List Char → Prop
  | [] => True
  | c :: _ => c = ',' ∨ c = ']' ∨ c = '}'

theorem delimOk_noDigit (rest : List Char) (h : DelimOk rest) : NoDigitHead rest := by
  match rest with
  | [] => trivial
  | c :: t =>
    rcases h with rfl | rfl | rfl
    · exact (by decide : isDigitC ',' = false)
    · exact (by decide : isDigitC ']' = false)
    · exact (by decide : isDigitC '}' = false)

/-! ### Fuel accounting for the scanner -/

mutual

/-- Fuel sufficient for `parseVal` to scan the serialization of a value. -/
def fuelNeeded : Json → Nat
  | .null => 1
  | .bool _ => 1
  | .num _ => 1
  | .str _ => 1
  | .arr [] => 1
  | .arr (e :: es) => 1 + fuelSep e es
  | .obj [] => 1
  | .obj (m :: ms) => 1 + fuelMembers m ms
termination_by j => sizeOf j
decreasing_by
  all_goals simp_wf
  all_goals omega

/-- Fuel sufficient for `parseElems` on a serialized element list. -/
def fuelSep : Json → List Json → Nat
  | e, [] => 1 + fuelNeeded e
  | e, e2 :: es => 1 + fuelNeeded e + fuelSep e2 es
termination_by e es => sizeOf e + sizeOf es
decreasing_by
  all_goals simp_wf
  all_goals omega

/-- Fuel sufficient for `parseMembers` on a serialized member list. -/
def fuelMembers : String × Json → List (String × Json) → Nat
  | (_, v), [] => 1 + fuelNeeded v
  | (_, v), m :: ms => 1 + fuelNeeded v + fuelMembers m ms
termination_by m ms => sizeOf m + sizeOf ms
decreasing_by
  all_goals simp_wf
  all_goals omega

end

theorem fuelNeeded_pos (j : Json) : 1 ≤ fuelNeeded j := by
  cases j with
  | null => rw [fuelNeeded]
  | bool b => rw [fuelNeeded]
  | num i => rw [fuelNeeded]
  | str s => rw [fuelNeeded]
  | arr es => cases es <;> rw [fuelNeeded] <;> omega
  | obj ms => cases ms <;> rw [fuelNeeded] <;> omega

theorem fuelSep_pos (e : Json) (es : List Json) : 1 ≤ fuelSep e es := by
  cases es <;> rw [fuelSep] <;> omega

theorem fuelMembers_pos (m : String × Json) (ms : List (String × Json)) :
    1 ≤ fuelMembers m ms := by
  obtain ⟨k, v⟩ := m
  cases ms <;> rw [fuelMembers] <;> omega

/-! ### The round-trip induction -/

theorem parseVal_step (f : Nat) (c : Char) (r : List Char) (hnw : isJsonWs c = false) :
    parseVal (f + 1) (c :: r) =
      (if c = 'n' then (dropLit ['u', 'l', 'l'] r).map fun r2 => (Json.null, r2)
      else if c = 't' then (dropLit ['r', 'u', 'e'] r).map fun r2 => (Json.bool true, r2)
      else if c = 'f' then (dropLit ['a', 'l', 's', 'e'] r).map fun r2 => (Json.bool false, r2)
      else if c = '"' then (parseStrBody r []).map fun p => (Json.str p.1, p.2)
      else if c = '[' then
        if headIs ']' (skipWs r) then some (.arr [], (skipWs r).tail)
        else (parseElems f (skipWs r)).map fun p => (.arr p.1, p.2)
      else if c = '{' then
        if headIs '}' (skipWs r) then some (.obj [], (skipWs r).tail)
        else (parseMembers f (skipWs r)).map fun p => (.obj p.1, p.2)
      else parseNum (c :: r)) := by
  rw [parseVal, skipWs_cons r hnw]

mutual

theorem parseVal_dump : ∀ (j : Json) (f : Nat) (rest : List Char),
    fuelNeeded j ≤ f → DelimOk rest →
    ∃ v, parseVal f (dumpChars j ++ rest) = some (v, rest)
  | .null, f, rest, hf, hrest => by
    obtain ⟨f2, rfl⟩ : ∃ f2, f = f2 + 1 := ⟨f - 1, by have := fuelNeeded_pos .null; omega⟩
    refine ⟨.null, ?_⟩
    rw [dumpChars_null, List.cons_append, parseVal_step _ _ _ (by decide), if_pos rfl]
    simp [dropLit]
  | .bool true, f, rest, hf, hrest => by
    obtain ⟨f2, rfl⟩ : ∃ f2, f = f2 + 1 := ⟨f - 1, by have := fuelNeeded_pos (.bool true); omega⟩
    refine ⟨.bool true, ?_⟩
    rw [dumpChars_true, List.cons_append, parseVal_step _ _ _ (by decide),
      if_neg (by decide), if_pos rfl]
    simp [dropLit]
  | .bool false, f, rest, hf, hrest => by
    obtain ⟨f2, rfl⟩ : ∃ f2, f = f2 + 1 :=
      ⟨f - 1, by have := fuelNeeded_pos (.bool false); omega⟩
    refine ⟨.bool false, ?_⟩
    rw [dumpChars_false, List.cons_append, parseVal_step _ _ _ (by decide),
      if_neg (by decide), if_neg (by decide), if_pos rfl]
    simp [dropLit]
  | .num i, f, rest, hf, hrest => by
    obtain ⟨f2, rfl⟩ : ∃ f2, f = f2 + 1 := ⟨f - 1, by have := fuelNeeded_pos (.num i); omega⟩
    rw [dumpChars_num]
    obtain ⟨c, t, hct, hcase⟩ := intToChars_head i
    have hnw : isJsonWs c = false := by
      rcases hcase with rfl | hd
      · decide
      · exact not_ws_of_digit hd
    rw [hct, List.cons_append, parseVal_step _ _ _ hnw]
    have hnum : ∃ v, parseNum (c :: (t ++ rest)) = some (v, rest) := by
      rw [← List.cons_append, ← hct]
      exact parseNum_intToChars i rest (delimOk_noDigit rest hrest)
    rcases hcase with rfl | hd
    · rw [if_neg (by decide), if_neg (by decide), if_neg (by decide), if_neg (by decide),
        if_neg (by decide), if_neg (by decide)]
      exact hnum
    · rw [if_neg (char_ne_of_digit hd (by decide)), if_neg (char_ne_of_digit hd (by decide)),
        if_neg (char_ne_of_digit hd (by decide)), if_neg (char_ne_of_digit hd (by decide)),
        if_neg (char_ne_of_digit hd (by decide)), if_neg (char_ne_of_digit hd (by decide))]
      exact hnum
  | .str s, f, rest, hf, hrest => by
    obtain ⟨f2, rfl⟩ : ∃ f2, f = f2 + 1 := ⟨f - 1, by have := fuelNeeded_pos (.str s); omega⟩
    rw [dumpChars_str, List.cons_append, List.append_assoc, List.singleton_append,
      parseVal_step _ _ _ (by decide), if_neg (by decide), if_neg (by decide),
      if_neg (by decide), if_pos rfl]
    obtain ⟨v, hv⟩ := parseStrBody_escList s.data [] rest
    exact ⟨.str v, by rw [hv]; rfl⟩
  | .arr [], f, rest, hf, hrest => by
    obtain ⟨f2, rfl⟩ : ∃ f2, f = f2 + 1 := ⟨f - 1, by have := fuelNeeded_pos (.arr []); omega⟩
    refine ⟨.arr [], ?_⟩
    rw [dumpChars_arrNil, List.cons_append, List.cons_append,
      parseVal_step _ _ _ (by decide), if_neg (by decide), if_neg (by decide),
      if_neg (by decide), if_neg (by decide), if_pos rfl,
      skipWs_cons _ (by decide)]
    simp [headIs]
  | .arr (e :: es), f, rest, hf, hrest => by
    obtain ⟨f2, rfl⟩ : ∃ f2, f = f2 + 1 :=
      ⟨f - 1, by have := fuelNeeded_pos (.arr (e :: es)); omega⟩
    rw [dumpChars_arrCons, List.cons_append, List.append_assoc, List.singleton_append,
      parseVal_step _ _ _ (by decide), if_neg (by decide), if_neg (by decide),
      if_neg (by decide), if_neg (by decide), if_pos rfl]
    obtain ⟨c, t, hct, htok⟩ := dumpSep_head e es
    have hsk : skipWs (dumpSep e es ++ ']' :: rest) = dumpSep e es ++ ']' :: rest := by
      rw [hct, List.cons_append]
      exact skipWs_cons _ (tokStart_not_ws htok)
    have hhd : headIs ']' (dumpSep e es ++ ']' :: rest) = false := by
      rw [hct, List.cons_append]
      simp only [headIs]
      exact decide_eq_false (tokStart_ne_close htok).1
    rw [hsk, hhd]
    simp only [Bool.false_eq_true, if_false]
    have hfs : fuelSep e es ≤ f2 := by
      rw [fuelNeeded] at hf
      omega
    obtain ⟨vs, hvs⟩ := parseElems_dump e es f2 rest hfs
    exact ⟨.arr vs, by rw [hvs]; rfl⟩
  | .obj [], f, rest, hf, hrest => by
    obtain ⟨f2, rfl⟩ : ∃ f2, f = f2 + 1 := ⟨f - 1, by have := fuelNeeded_pos (.obj []); omega⟩
    refine ⟨.obj [], ?_⟩
    rw [dumpChars_objNil, List.cons_append, List.cons_append,
      parseVal_step _ _ _ (by decide), if_neg (by decide), if_neg (by decide),
      if_neg (by decide), if_neg (by decide), if_neg (by decide), if_pos rfl,
      skipWs_cons _ (by decide)]
    simp [headIs]
  | .obj (m :: ms), f, rest, hf, hrest => by
    obtain ⟨f2, rfl⟩ : ∃ f2, f = f2 + 1 :=
      ⟨f - 1, by have := fuelNeeded_pos (.obj (m :: ms)); omega⟩
    rw [dumpChars_objCons, List.cons_append, List.append_assoc, List.singleton_append,
      parseVal_step _ _ _ (by decide), if_neg (by decide), if_neg (by decide),
      if_neg (by decide), if_neg (by decide), if_neg (by decide), if_pos rfl]
    obtain ⟨t, hct⟩ : ∃ t, dumpMemberSep m ms = '"' :: t := by
      obtain ⟨k, v⟩ := m
      cases ms with
      | nil => exact ⟨_, dumpMemberSep_nil k v⟩
      | cons m2 ms2 => exact ⟨_, by rw [dumpMemberSep_cons, List.cons_append]⟩
    have hsk : skipWs (dumpMemberSep m ms ++ '}' :: rest) =
        dumpMemberSep m ms ++ '}' :: rest := by
      rw [hct, List.cons_append]
      exact skipWs_cons _ (by decide)
    have hhd : headIs '}' (dumpMemberSep m ms ++ '}' :: rest) = false := by
      rw [hct, List.cons_append]
      simp only [headIs]
      exact decide_eq_false (by decide)
    rw [hsk, hhd]
    simp only [Bool.false_eq_true, if_false]
    have hfs : fuelMembers m ms ≤ f2 := by
      rw [fuelNeeded] at hf
      omega
    obtain ⟨vs, hvs⟩ := parseMembers_dump m ms f2 rest hfs
    exact ⟨.obj vs, by rw [hvs]; rfl⟩
termination_by j => sizeOf j
decreasing_by
  all_goals simp_wf
  all_goals omega

theorem parseElems_dump : ∀ (e : Json) (es : List Json) (f : Nat) (rest : List Char),
    fuelSep e es ≤ f →
    ∃ vs, parseElems f (dumpSep e es ++ ']' :: rest) = some (vs, rest)
  | e, [], f, rest, hf => by
    obtain ⟨f2, rfl⟩ : ∃ f2, f = f2 + 1 := ⟨f - 1, by have := fuelSep_pos e []; omega⟩
    rw [dumpSep_nil]
    rw [fuelSep] at hf
    obtain ⟨v, hv⟩ := parseVal_dump e f2 (']' :: rest) (by omega) (Or.inr (Or.inl rfl))
    refine ⟨[v], ?_⟩
    rw [parseElems]
    simp only [hv]
    rw [skipWs_cons _ (by decide)]
    simp [headIs]
  | e, e2 :: es, f, rest, hf => by
    obtain ⟨f2, rfl⟩ : ∃ f2, f = f2 + 1 := ⟨f - 1, by have := fuelSep_pos e (e2 :: es); omega⟩
    rw [dumpSep_cons]
    rw [fuelSep] at hf
    rw [List.append_assoc, List.cons_append]
    obtain ⟨v, hv⟩ :=
      parseVal_dump e f2 (',' :: (dumpSep e2 es ++ ']' :: rest)) (by omega) (Or.inl rfl)
    rw [parseElems]
    simp only [hv]
    rw [skipWs_cons _ (by decide)]
    obtain ⟨vs, hvs⟩ := parseElems_dump e2 es f2 rest (by omega)
    refine ⟨v :: vs, ?_⟩
    simp [headIs, hvs]
termination_by e es => sizeOf e + sizeOf es
decreasing_by
  all_goals simp_wf
  all_goals omega

theorem parseMembers_dump : ∀ (m : String × Json) (ms : List (String × Json)) (f : Nat)
    (rest : List Char), fuelMembers m ms ≤ f →
    ∃ vs, parseMembers f (dumpMemberSep m ms ++ '}' :: rest) = some (vs, rest)
  | (k, v), [], f, rest, hf => by
    obtain ⟨f2, rfl⟩ : ∃ f2, f = f2 + 1 :=
      ⟨f - 1, by have := fuelMembers_pos (k, v) []; omega⟩
    rw [fuelMembers] at hf
    have hshape : dumpMemberSep (k, v) [] ++ '}' :: rest =
        '"' :: (escList k.data ++ '"' :: (':' :: (dumpChars v ++ '}' :: rest))) := by
      rw [dumpMemberSep_nil]
      simp
    rw [hshape, parseMembers, skipWs_cons _ (by decide)]
    simp only [headIs, decide_eq_true_eq, if_pos rfl, List.tail_cons]
    obtain ⟨kk, hk⟩ := parseStrBody_escList k.data [] (':' :: (dumpChars v ++ '}' :: rest))
    rw [hk]
    simp only [Option.some.injEq]
    rw [skipWs_cons _ (by decide)]
    simp only [headIs, decide_eq_true_eq, if_pos rfl, List.tail_cons]
    obtain ⟨vv, hv⟩ := parseVal_dump v f2 ('}' :: rest) (by omega) (Or.inr (Or.inr rfl))
    rw [hv]
    simp only [Option.some.injEq]
    rw [skipWs_cons _ (by decide)]
    refine ⟨[(kk, vv)], ?_⟩
    simp [headIs]
  | (k, v), m2 :: ms2, f, rest, hf => by
    obtain ⟨f2, rfl⟩ : ∃ f2, f = f2 + 1 :=
      ⟨f - 1, by have := fuelMembers_pos (k, v) (m2 :: ms2); omega⟩
    rw [fuelMembers] at hf
    have hshape : dumpMemberSep (k, v) (m2 :: ms2) ++ '}' :: rest =
        '"' :: (escList k.data ++ '"' ::
          (':' :: (dumpChars v ++ ',' :: (dumpMemberSep m2 ms2 ++ '}' :: rest)))) := by
      rw [dumpMemberSep_cons]
      simp
    rw [hshape, parseMembers, skipWs_cons _ (by decide)]
    simp only [headIs, decide_eq_true_eq, if_pos rfl, List.tail_cons]
    obtain ⟨kk, hk⟩ := parseStrBody_escList k.data []
      (':' :: (dumpChars v ++ ',' :: (dumpMemberSep m2 ms2 ++ '}' :: rest)))
    rw [hk]
    simp only [Option.some.injEq]
    rw [skipWs_cons _ (by decide)]
    simp only [headIs, decide_eq_true_eq, if_pos rfl, List.tail_cons]
    obtain ⟨vv, hv⟩ := parseVal_dump v f2 (',' :: (dumpMemberSep m2 ms2 ++ '}' :: rest))
      (by omega) (Or.inl rfl)
    rw [hv]
    simp only [Option.some.injEq]
    rw [skipWs_cons _ (by decide)]
    simp only [headIs, decide_eq_true_eq, if_pos rfl, List.tail_cons]
    obtain ⟨vs, hvs⟩ := parseMembers_dump m2 ms2 f2 rest (by omega)
    refine ⟨(kk, vv) :: vs, ?_⟩
    simp [hvs]
termination_by m ms => sizeOf m + sizeOf ms
decreasing_by
  all_goals simp_wf
  all_goals omega

end

mutual

theorem fuelNeeded_le (j : Json) : fuelNeeded j ≤ (dumpChars j).length := by
  cases j with
  | null => rw [fuelNeeded, dumpChars_null]; simp
  | bool b => cases b <;> rw [fuelNeeded] <;> simp [dumpChars_true, dumpChars_false]
  | num i =>
    rw [fuelNeeded, dumpChars_num]
    obtain ⟨c, t, hct, _⟩ := intToChars_head i
    rw [hct]
    simp
  | str s => rw [fuelNeeded, dumpChars_str]; simp
  | arr es =>
    cases es with
    | nil => rw [fuelNeeded, dumpChars_arrNil]; simp
    | cons e es =>
      have h := fuelSep_le e es
      rw [fuelNeeded, dumpChars_arrCons]
      simp only [List.length_cons, List.length_append, List.length_singleton]
      omega
  | obj ms =>
    cases ms with
    | nil => rw [fuelNeeded, dumpChars_objNil]; simp
    | cons m ms =>
      have h := fuelMembers_le m ms
      rw [fuelNeeded, dumpChars_objCons]
      simp only [List.length_cons, List.length_append, List.length_singleton]
      omega
termination_by sizeOf j
decreasing_by
  all_goals simp_wf
  all_goals omega

theorem fuelSep_le (e : Json) (es : List Json) :
    fuelSep e es ≤ (dumpSep e es).length + 1 := by
  cases es with
  | nil =>
    have h := fuelNeeded_le e
    rw [fuelSep, dumpSep_nil]
    omega
  | cons e2 es =>
    have h1 := fuelNeeded_le e
    have h2 := fuelSep_le e2 es
    rw [fuelSep, dumpSep_cons]
    simp only [List.length_append, List.length_cons]
    omega
termination_by sizeOf e + sizeOf es
decreasing_by
  all_goals simp_wf
  all_goals omega

theorem fuelMembers_le (m : String × Json) (ms : List (String × Json)) :
    fuelMembers m ms ≤ (dumpMemberSep m ms).length + 1 := by
  obtain ⟨k, v⟩ := m
  cases ms with
  | nil =>
    have h := fuelNeeded_le v
    rw [fuelMembers, dumpMemberSep_nil]
    simp only [List.length_cons, List.length_append]
    omega
  | cons m2 ms2 =>
    have h1 := fuelNeeded_le v
    have h2 := fuelMembers_le m2 ms2
    rw [fuelMembers, dumpMemberSep_cons]
    simp only [List.length_cons, List.length_append]
    omega
termination_by sizeOf m + sizeOf ms
decreasing_by
  all_goals simp_wf
  all_goals omega

end

/-- Every value serialized by `dump` is accepted by the strict parser. -/
theorem Json.parse_dump_isSome (j : Json) : (Json.parse (Json.dump j)).isSome := by
  have hlen : fuelNeeded j ≤ (Json.dump j).length + 1 := by
    have h1 := fuelNeeded_le j
    have h2 : (Json.dump j).length = (dumpChars j).length := rfl
    omega
  obtain ⟨v, hv⟩ := parseVal_dump j ((Json.dump j).length + 1) [] hlen trivial
  rw [List.append_nil] at hv
  rw [Json.parse]
  rw [show (Json.dump j).data = dumpChars j from rfl, hv]
  rfl

/-- Validity of serializer output, string form. -/
theorem JsonValid_dump (j : Json) : JsonValid (Json.dump j) = true := by
  rw [JsonValid]
  exact Json.parse_dump_isSome j

/-! ### Loose JSON recovery (tooling.cpp `Trim`, `ExtractFirstJsonObject`,
`ExtractBalanced`, `ParseJsonLoose`) -/

/-- Characters treated as whitespace by C++ `isspace` in the default
locale, used by `Trim`. -/
def isCppSpace (c : Char) : Bool :=
  c = ' ' || c = '\t' || c = '\n' || c.toNat = 11 || c.toNat = 12 || c.toNat = 13

/-- Model of `Trim`: strip leading and trailing `isspace` characters. -/
def trimChars (cs : List Char) : List Char :=
  ((cs.dropWhile isCppSpace).reverse.dropWhile isCppSpace).reverse

/-- Model of `Trim` on strings. -/
def Trim (s : String) : String := String.mk (trimChars s.data)

/-- Suffix of the text starting at its first opening brace. -/
def findBrace : List Char → Option (List Char)
  | [] => none
  | c :: cs => if c = '{' then some (c :: cs) else findBrace cs

/-- Balanced-bracket scanner shared by `ExtractFirstJsonObject` and
`ExtractBalanced`: walks the text tracking depth, string state and escape
state exactly as the C++ loop does, and returns the collected characters
when the depth returns to zero. -/
def balScan (opn cls : Char) : List Char → Nat → Bool → Bool → List Char → Option (List Char)
  | [], _, _, _, _ => none
  | c :: cs, depth, inStr, esc, acc =>
    if inStr then
      if esc then balScan opn cls cs depth true false (c :: acc)
      else if c = '\\' then balScan opn cls cs depth true true (c :: acc)
      else if c = '"' then balScan opn cls cs depth false false (c :: acc)
      else balScan opn cls cs depth true false (c :: acc)
    else if c = '"' then balScan opn cls cs depth true false (c :: acc)
    else
      let d1 := if c = opn then depth + 1 else depth
      if c = cls then
        if d1 = 1 then some (c :: acc).reverse
        else balScan opn cls cs (d1 - 1) false false (c :: acc)
      else balScan opn cls cs d1 false false (c :: acc)

/-- Model of `ExtractFirstJsonObject`: the first balanced brace-delimited
substring of the text, if any. -/
def ExtractFirstJsonObject (cs : List Char) : Option (List Char) :=
  (findBrace cs).bind fun suf => balScan '{' '}' suf 0 false false []

/-- Model of `ExtractBalanced` on the suffix beginning at the start
index: the opening character picks the bracket pair, anything else
fails. -/
def ExtractBalanced (cs : List Char) : Option (List Char) :=
  match cs with
  | [] => none
  | c :: _ =>
    if c = '{' then balScan '{' '}' cs 0 false false []
    else if c = '[' then balScan '[' ']' cs 0 false false []
    else none

/-- Model of `ParseJsonLoose`: trim, try a strict parse, then try the
first embedded balanced object. -/
def ParseJsonLoose (text : String) : Option Json :=
  let trimmed := Trim text
  if trimmed = "" then none
  else
    match Json.parse trimmed with
    | some j => some j
    | none =>
      match ExtractFirstJsonObject trimmed.data with
      | some oc => Json.parse (String.mk oc)
      | none => none

/-- Truth of loose validity: the runtime could recover a JSON value. -/
def LooseValid (s : String) : Bool := (ParseJsonLoose s).isSome

/-! ### Decidable equality of JSON values -/

mutual

/-- Structural comparison of values. -/
def beqJson : Json → Json → Bool
  | .null, .null => true
  | .bool a, .bool b => a = b
  | .num a, .num b => a = b
  | .str a, .str b => a = b
  | .arr a, .arr b => beqJsonList a b
  | .obj a, .obj b => beqJsonMembers a b
  | _, _ => false
termination_by a _ => sizeOf a
decreasing_by
  all_goals simp_wf
  all_goals omega

/-- Structural comparison of element lists. -/
def beqJsonList : List Json → List Json → Bool
  | [], [] => true
  | a :: as2, b :: bs => beqJson a b && beqJsonList as2 bs
  | _, _ => false
termination_by a _ => sizeOf a
decreasing_by
  all_goals simp_wf
  all_goals omega

/-- Structural comparison of member lists. -/
def beqJsonMembers : List (String × Json) → List (String × Json) → Bool
  | [], [] => true
  | (k1, v1) :: as2, (k2, v2) :: bs => k1 = k2 && beqJson v1 v2 && beqJsonMembers as2 bs
  | _, _ => false
termination_by a _ => sizeOf a
decreasing_by
  all_goals simp_wf
  all_goals omega

end

mutual

theorem beqJson_iff : ∀ a b : Json, beqJson a b = true ↔ a = b
  | .null, .null => by simp [beqJson]
  | .bool _, .bool _ => by simp [beqJson]
  | .num _, .num _ => by simp [beqJson]
  | .str _, .str _ => by simp [beqJson]
  | .arr a, .arr b => by simp [beqJson, beqJsonList_iff a b]
  | .obj a, .obj b => by simp [beqJson, beqJsonMembers_iff a b]
  | .null, .bool _ | .null, .num _ | .null, .str _ | .null, .arr _ | .null, .obj _
  | .bool _, .null | .bool _, .num _ | .bool _, .str _ | .bool _, .arr _ | .bool _, .obj _
  | .num _, .null | .num _, .bool _ | .num _, .str _ | .num _, .arr _ | .num _, .obj _
  | .str _, .null | .str _, .bool _ | .str _, .num _ | .str _, .arr _ | .str _, .obj _
  | .arr _, .null | .arr _, .bool _ | .arr _, .num _ | .arr _, .str _ | .arr _, .obj _
  | .obj _, .null | .obj _, .bool _ | .obj _, .num _ | .obj _, .str _ | .obj _, .arr _ => by
    simp [beqJson]
termination_by a _ => sizeOf a
decreasing_by
  all_goals simp_wf
  all_goals omega

theorem beqJsonList_iff : ∀ a b : List Json, beqJsonList a b = true ↔ a = b
  | [], [] => by simp [beqJsonList]
  | a :: as2, b :: bs => by
    simp [beqJsonList, beqJson_iff a b, beqJsonList_iff as2 bs]
  | [], _ :: _ => by simp [beqJsonList]
  | _ :: _, [] => by simp [beqJsonList]
termination_by a _ => sizeOf a
decreasing_by
  all_goals simp_wf
  all_goals omega

theorem beqJsonMembers_iff :
    ∀ a b : List (String × Json), beqJsonMembers a b = true ↔ a = b
  | [], [] => by simp [beqJsonMembers]
  | (k1, v1) :: as2, (k2, v2) :: bs => by
    simp [beqJsonMembers, beqJson_iff v1 v2, beqJsonMembers_iff as2 bs, and_assoc]
  | [], _ :: _ => by simp [beqJsonMembers]
  | _ :: _, [] => by simp [beqJsonMembers]
termination_by a _ => sizeOf a
decreasing_by
  all_goals simp_wf
  all_goals omega

end

instance : DecidableEq Json := fun a b => decidable_of_iff _ (beqJson_iff a b)

/-! ### Provider registry (providers/registry.hpp) -/

/-- Result of `ProviderRegistry::Activate`. -/
structure SwitchResult where
  switched : Bool := false
  fromName : String := ""
  toName : String := ""
  deriving Repr, DecidableEq

/-- Hook invocations performed on providers. -/
inductive HookEvent where
  | start (name : String)
  | stop (name : String)
  deriving Repr, DecidableEq

/-- State of a `ProviderRegistry`.  Providers are identified by their
names; the stored `IProvider` objects carry no state observed by the
verified claims, so `providers` is the set of registered names in
registration order. -/
structure RegState where
  defaultProvider : String := ""
  activeProvider : String := ""
  providers : List String := []
  deriving Repr, DecidableEq

/-- Model of `Register`: keyed by name, a re-registration overwrites. -/
def RegState.register (st : RegState) (name : String) : RegState :=
  if st.providers.contains name then st
  else { st with providers := st.providers ++ [name] }

/-- Model of `ProviderRegistry::Activate`, returning the new state, the
`SwitchResult` and the provider hook calls in invocation order. -/
def Activate (st : RegState) (name : String) : RegState × SwitchResult × List HookEvent :=
  if name = "" then (st, {}, [])
  else if st.activeProvider = name then (st, {}, [])
  else if ¬st.providers.contains name then (st, {}, [])
  else
    let stops :=
      if st.activeProvider ≠ "" ∧ st.providers.contains st.activeProvider then
        [HookEvent.stop st.activeProvider]
      else []
    ({ st with activeProvider := name },
      { switched := true, fromName := st.activeProvider, toName := name },
      stops ++ [HookEvent.start name])

/-- Result of `ProviderRegistry::Resolve`; the provider handle is
identified by its registered name. -/
structure ResolvedModel where
  provider_name : String
  model : String
  deriving Repr, DecidableEq

/-- Split a character list at its first colon. -/
def splitAtColon : List Char → Option (List Char × List Char)
  | [] => none
  | c :: cs =>
    if c = ':' then some ([], cs)
    else (splitAtColon cs).map fun p => (c :: p.1, p.2)

/-- Model of `ProviderRegistry::Resolve`. -/
def Resolve (st : RegState) (model_name : String) : Option ResolvedModel :=
  let pm :=
    match splitAtColon model_name.data with
    | some p => (String.mk p.1, String.mk p.2)
    | none => (st.defaultProvider, model_name)
  if st.providers.contains pm.1 then some ⟨pm.1, pm.2⟩ else none

/-- Registry operations whose interleavings the activation claims range
over. -/
inductive RegOp where
  | register (name : String)
  | activate (name : String)
  | setDefault (name : String)
  deriving Repr, DecidableEq

/-- One registry operation: next state and emitted hook calls. -/
def regStep (st : RegState) : RegOp → RegState × List HookEvent
  | .register n => (st.register n, [])
  | .activate n => ((Activate st n).1, (Activate st n).2.2)
  | .setDefault n => ({ st with defaultProvider := n }, [])

/-- Run a sequence of registry operations, collecting hook calls. -/
def runOps (st : RegState) : List RegOp → RegState × List HookEvent
  | [] => (st, [])
  | op :: ops =>
    let (st2, evs) := regStep st op
    let (st3, evs2) := runOps st2 ops
    (st3, evs ++ evs2)

/-- Truth of an operation either not being an activation or activating
the given provider. -/
def opActivatesOnly (n : String) : RegOp → Bool
  | .activate m => m = n
  | _ => true

theorem splitAtColon_of_no_colon (cs : List Char) (h : ∀ c ∈ cs, c ≠ ':') :
    splitAtColon cs = none := by
  induction cs with
  | nil => rfl
  | cons c cs ih =>
    simp only [splitAtColon, if_neg (h c (by simp)),
      ih fun x hx => h x (by simp [hx])]
    rfl

theorem splitAtColon_first (a b : List Char) (h : ∀ c ∈ a, c ≠ ':') :
    splitAtColon (a ++ ':' :: b) = some (a, b) := by
  induction a with
  | nil => simp [splitAtColon]
  | cons c cs ih =>
    have ih2 := ih fun x hx => h x (by simp [hx])
    simp [splitAtColon, if_neg (h c (by simp)), ih2]

theorem activate_start_events (st : RegState) (k x : String)
    (h : HookEvent.start x ∈ (Activate st k).2.2) : x = k := by
  unfold Activate at h
  split at h
  · simp at h
  · split at h
    · simp at h
    · split at h
      · simp at h
      · simp only [List.mem_append, List.mem_singleton] at h
        rcases h with h | h
        · split at h <;> simp at h
        · simp at h
          exact h

theorem runOps_start_only (n : String) :
    ∀ (ops : List RegOp) (st : RegState),
    (∀ op ∈ ops, opActivatesOnly n op = true) →
    ∀ x, HookEvent.start x ∈ (runOps st ops).2 → x = n := by
  intro ops
  induction ops with
  | nil => intro st _ x hx; simp [runOps] at hx
  | cons op ops ih =>
    intro st hops x hx
    rw [runOps] at hx
    simp only [List.mem_append] at hx
    rcases hx with hx | hx
    · match op, hx with
      | .register m, hx => simp [regStep] at hx
      | .setDefault m, hx => simp [regStep] at hx
      | .activate m, hx =>
        have hm : m = n := by
          have := hops (.activate m) (by simp)
          simpa [opActivatesOnly] using this
        subst hm
        exact activate_start_events _ _ _ (by simpa [regStep] using hx)
    · exact ih _ (fun o ho => hops o (by simp [ho])) x hx

/-- Claim C8: model resolution splits at the first colon, falls back to
the default provider, and fails exactly on unregistered providers. -/
theorem resolve_claim (st : RegState) (s : String) :
    (∀ a b : String, s = a ++ ":" ++ b → (∀ c ∈ a.data, c ≠ ':') →
      Resolve st s =
        if st.providers.contains a then some ⟨a, b⟩ else none) ∧
    ((∀ c ∈ s.data, c ≠ ':') →
      Resolve st s =
        if st.providers.contains st.defaultProvider
        then some ⟨st.defaultProvider, s⟩ else none) := by
  constructor
  · intro a b hs hnc
    subst hs
    have hdata : (a ++ ":" ++ b).data = a.data ++ ':' :: b.data := by
      rw [String.data_append, String.data_append]
      simp
    rw [Resolve, hdata, splitAtColon_first a.data b.data hnc]
  · intro hnc
    rw [Resolve, splitAtColon_of_no_colon s.data hnc]

/-- Witness for the claim C8 theorem at concrete inputs. -/
theorem resolve_claim_witness :
    (Resolve ⟨"llama_cpp", "", ["llama_cpp", "ollama"]⟩ "ollama:all-minilm" =
      some ⟨"ollama", "all-minilm"⟩) ∧
    (Resolve ⟨"llama_cpp", "", ["llama_cpp", "ollama"]⟩ "phi-3" =
      some ⟨"llama_cpp", "phi-3"⟩) ∧
    (Resolve ⟨"llama_cpp", "", ["llama_cpp", "ollama"]⟩ "unknown:x" = none) := by
  refine ⟨?_, ?_, ?_⟩
  · rw [(resolve_claim ⟨"llama_cpp", "", ["llama_cpp", "ollama"]⟩ "ollama:all-minilm").1
      "ollama" "all-minilm" rfl (by decide)]
    decide
  · rw [(resolve_claim ⟨"llama_cpp", "", ["llama_cpp", "ollama"]⟩ "phi-3").2 (by decide)]
    decide
  · rw [(resolve_claim ⟨"llama_cpp", "", ["llama_cpp", "ollama"]⟩ "unknown:x").1
      "unknown" "x" rfl (by decide)]
    decide

/-- Claim C4: activation is a no-op on the already-active provider;
otherwise, for a registered provider, the previous active provider is
stopped and then the new one started; and between the return of
`Activate(n)` and the next activation of a different provider, only
provider `n` is ever started. -/
theorem activate_claim (st : RegState) (n : String) (ops : List RegOp) :
    (st.activeProvider = n → Activate st n = (st, {}, [])) ∧
    (n ≠ "" → st.providers.contains n = true → st.activeProvider ≠ n →
      st.activeProvider ≠ "" → st.providers.contains st.activeProvider = true →
      (Activate st n).2.2 = [.stop st.activeProvider, .start n] ∧
      (Activate st n).1 = { st with activeProvider := n } ∧
      (Activate st n).2.1 = ⟨true, st.activeProvider, n⟩) ∧
    ((∀ op ∈ ops, opActivatesOnly n op = true) →
      ∀ x, HookEvent.start x ∈ (runOps (Activate st n).1 ops).2 → x = n) := by
  refine ⟨?_, ?_, ?_⟩
  · intro h
    rw [Activate]
    by_cases h1 : n = ""
    · rw [if_pos h1]
    · rw [if_neg h1, if_pos h]
  · intro hne0 hreg hne hact hactreg
    rw [Activate, if_neg hne0, if_neg hne, if_neg (not_not_intro hreg),
      if_pos ⟨hact, hactreg⟩]
    exact ⟨rfl, rfl, rfl⟩
  · intro hops x hx
    exact runOps_start_only n ops _ hops x hx

/-- Witness for the claim C4 theorem at concrete inputs. -/
theorem activate_claim_witness :
    (Activate ⟨"d", "a", ["a", "b"]⟩ "a" = (⟨"d", "a", ["a", "b"]⟩, {}, [])) ∧
    ((Activate ⟨"d", "a", ["a", "b"]⟩ "b").2.2 = [.stop "a", .start "b"]) ∧
    ("b" = "b") := by
  refine ⟨?_, ?_, ?_⟩
  · exact (activate_claim ⟨"d", "a", ["a", "b"]⟩ "a" []).1 rfl
  · exact ((activate_claim ⟨"d", "a", ["a", "b"]⟩ "b" []).2.1 (by decide) (by decide)
      (by decide) (by decide) (by decide)).1
  · exact (activate_claim ⟨"d", "a", ["a"]⟩ "b" [.register "b", .activate "b"]).2.2
      (by decide) "b" (by decide)

/-- Claim C10: activating an empty or unregistered name changes nothing
and invokes no hook. -/
theorem activate_unknown_noop (st : RegState) (n : String)
    (h : n = "" ∨ st.providers.contains n = false) :
    Activate st n = (st, {}, []) := by
  rcases h with rfl | h
  · rw [Activate, if_pos rfl]
  · by_cases h1 : n = ""
    · rw [Activate, if_pos h1]
    · by_cases h2 : st.activeProvider = n
      · rw [Activate, if_neg h1, if_pos h2]
      · rw [Activate, if_neg h1, if_neg h2,
          if_pos (by simpa using h : ¬st.providers.contains n = true)]

/-- Witness for the claim C10 theorem at concrete inputs. -/
theorem activate_unknown_noop_witness :
    Activate ⟨"d", "a", ["a", "b"]⟩ "zzz" = (⟨"d", "a", ["a", "b"]⟩, {}, []) ∧
    Activate ⟨"d", "a", ["a", "b"]⟩ "" = (⟨"d", "a", ["a", "b"]⟩, {}, []) := by
  exact ⟨activate_unknown_noop _ "zzz" (Or.inr (by decide)),
    activate_unknown_noop _ "" (Or.inl rfl)⟩

/-! ### Tool results and the unsupported-tool placeholder handlers
(tooling.cpp `BuildDefaultToolRegistry`) -/

/-- Model of the `ToolResult` struct. -/
structure ToolResult where
  tool_call_id : String := ""
  name : String := ""
  result : Json := Json.null
  ok : Bool := true
  error : String := ""
  deriving Repr, DecidableEq

/-- Model of `ErrorResult` in tooling.cpp. -/
def ErrorResult (message : String) : Json :=
  Json.obj [("ok", .bool false), ("error", .str message)]

/-- Shared shape of every unsupported-capability placeholder handler. -/
def mkUnsupported (toolName : String) (tool_call_id : String) (_ : Json) : ToolResult :=
  { tool_call_id := tool_call_id, name := toolName, ok := false,
    error := toolName ++ " is unsupported",
    result := ErrorResult (toolName ++ " is unsupported") }

/-- The `lsp` placeholder handler, whose error text carries an extra
redirection hint. -/
def lspHandler (tool_call_id : String) (_ : Json) : ToolResult :=
  { tool_call_id := tool_call_id, name := "lsp", ok := false,
    error := "lsp is unsupported (use ide.hover/ide.definition/ide.diagnostics if available)",
    result := ErrorResult
      "lsp is unsupported (use ide.hover/ide.definition/ide.diagnostics if available)" }

/-- The unsupported-capability handler table registered by
`BuildDefaultToolRegistry`, restricted to the placeholder tools. -/
def unsupportedHandlers : List (String × (String → Json → ToolResult)) :=
  [("webfetch", mkUnsupported "webfetch"),
   ("websearch", mkUnsupported "websearch"),
   ("bash", mkUnsupported "bash"),
   ("terminal", mkUnsupported "terminal"),
   ("task", mkUnsupported "task"),
   ("skill", mkUnsupported "skill"),
   ("lsp", lspHandler),
   ("batch", mkUnsupported "batch"),
   ("patch", mkUnsupported "patch"),
   ("multiedit", mkUnsupported "multiedit"),
   ("todoread", mkUnsupported "todoread")]

/-- Lookup of a placeholder handler by tool name. -/
def unsupportedHandlerFor (n : String) : Option (String → Json → ToolResult) :=
  (unsupportedHandlers.find? fun p => p.1 = n).map Prod.snd

/-- Counterexample to claim C7 as stated: the registered `lsp` handler
does not return the error `"lsp is unsupported"` but a longer
diagnostic. -/
theorem lsp_error_not_plain :
    ∃ h, unsupportedHandlerFor "lsp" = some h ∧
      (h "call-1" (Json.obj [])).ok = false ∧
      (h "call-1" (Json.obj [])).error ≠ "lsp is unsupported" ∧
      (h "call-1" (Json.obj [])).error =
        "lsp is unsupported (use ide.hover/ide.definition/ide.diagnostics if available)" := by
  refine ⟨lspHandler, ?_, rfl, by decide, rfl⟩
  rfl

/-- Claim C7 as amended: every placeholder handler fails with
`"<name> is unsupported"` exactly, except `lsp`, whose error message is
the fixed longer diagnostic beginning with the same words. -/
theorem unsupported_handlers_claim (n : String) (h : String → Json → ToolResult)
    (hmem : (n, h) ∈ unsupportedHandlers) (id : String) (args : Json) :
    (h id args).ok = false ∧
    (n ≠ "lsp" → (h id args).error = n ++ " is unsupported" ∧
      (h id args).result = ErrorResult (n ++ " is unsupported")) ∧
    (n = "lsp" → (h id args).error =
      "lsp is unsupported (use ide.hover/ide.definition/ide.diagnostics if available)") := by
  simp only [unsupportedHandlers, List.mem_cons, List.not_mem_nil, or_false,
    Prod.mk.injEq] at hmem
  rcases hmem with p | p | p | p | p | p | p | p | p | p | p <;>
    obtain ⟨rfl, rfl⟩ := p <;> first
      | exact ⟨rfl, fun _ => ⟨rfl, rfl⟩, fun h2 => absurd h2 (by decide)⟩
      | exact ⟨rfl, fun h1 => absurd rfl h1, fun _ => rfl⟩

/-- Witness for the amended claim C7 theorem at concrete inputs. -/
theorem unsupported_handlers_claim_witness :
    ((mkUnsupported "bash") "c1" (Json.obj []) |>.ok) = false ∧
    ((mkUnsupported "bash") "c1" (Json.obj []) |>.error) = "bash is unsupported" ∧
    (lspHandler "c2" Json.null).error =
      "lsp is unsupported (use ide.hover/ide.definition/ide.diagnostics if available)" := by
  have hb := unsupported_handlers_claim "bash" (mkUnsupported "bash")
    (by simp [unsupportedHandlers]) "c1" (Json.obj [])
  have hl := unsupported_handlers_claim "lsp" lspHandler
    (by simp [unsupportedHandlers]) "c2" Json.null
  exact ⟨hb.1, (hb.2.1 (by decide)).1, hl.2.2 rfl⟩

/-! ### The Ollama adapter `ChatStream` (ollama_provider.cpp) -/

/-- The 64-byte chunking loop of `OllamaProvider::ChatStream`. -/
def chunks64 : List Char → List (List Char)
  | [] => []
  | c :: cs => (c :: cs).take 64 :: chunks64 ((c :: cs).drop 64)
termination_by cs => cs.length
decreasing_by
  simp_wf
  omega

/-- Model of `OllamaProvider::ChatStream`: it calls `ChatOnce` and, on
success, emits the content in 64-byte chunks followed by `on_done`.  The
`once` argument is the outcome of the `ChatOnce` call (its content on
success); the result is `none` when `ChatStream` returns `false` without
emitting deltas, and `some deltas` when it returns `true` after emitting
`deltas` in order and invoking `on_done`. -/
def OllamaChatStream (once : Option (List Char)) : Option (List (List Char)) :=
  match once with
  | none => none
  | some content => some (chunks64 content)

theorem chunks64_join : ∀ cs : List Char, (chunks64 cs).flatten = cs
  | [] => by rw [chunks64]; rfl
  | c :: cs => by
    rw [chunks64, List.flatten_cons, chunks64_join ((c :: cs).drop 64),
      List.take_append_drop]
termination_by cs => cs.length
decreasing_by
  simp_wf
  omega

theorem chunks64_le : ∀ (cs : List Char) (d : List Char), d ∈ chunks64 cs → d.length ≤ 64
  | [], d => by rw [chunks64]; simp
  | c :: cs, d => by
    rw [chunks64]
    intro hd
    rcases List.mem_cons.mp hd with rfl | hd2
    · simp [List.length_take]
    · exact chunks64_le _ d hd2
termination_by cs _ => cs.length
decreasing_by
  simp_wf
  omega

theorem chunks64_full : ∀ (cs : List Char) (pre : List (List Char)) (d : List Char)
    (suf : List (List Char)), chunks64 cs = pre ++ d :: suf → suf ≠ [] → d.length = 64
  | [], pre, d, suf => by
    rw [chunks64]
    intro h
    exact absurd h (by simp)
  | c :: cs, pre, d, suf => by
    rw [chunks64]
    intro h hsuf
    match pre, h with
    | [], h =>
      simp only [List.nil_append, List.cons.injEq] at h
      obtain ⟨rfl, h2⟩ := h
      have hdrop : (c :: cs).drop 64 ≠ [] := by
        intro hd
        rw [← h2] at hsuf
        rw [hd, chunks64] at hsuf
        exact hsuf rfl
      have h64 : 64 ≤ (c :: cs).length := by
        by_contra hlen
        exact hdrop (List.drop_eq_nil_of_le (by omega))
      simp only [List.length_take, List.length_cons] at h64 ⊢
      omega
    | p :: pre, h =>
      simp only [List.cons_append, List.cons.injEq] at h
      exact chunks64_full ((c :: cs).drop 64) pre d suf h.2 hsuf
termination_by cs _ _ _ => cs.length
decreasing_by
  simp_wf
  omega

/-- Claim C9: `ChatStream` refines `ChatOnce`.  When `ChatOnce` fails it
returns `false` with no deltas; when `ChatOnce` succeeds with content
`c`, the emitted deltas concatenate to `c`, every delta is at most 64
bytes, and every delta before the last is exactly 64 bytes. -/
theorem ollama_chatstream_claim :
    OllamaChatStream none = none ∧
    ∀ c : List Char, ∃ ds, OllamaChatStream (some c) = some ds ∧
      ds.flatten = c ∧
      (∀ d ∈ ds, d.length ≤ 64) ∧
      (∀ pre d suf, ds = pre ++ d :: suf → suf ≠ [] → d.length = 64) := by
  refine ⟨rfl, fun c => ⟨chunks64 c, rfl, chunks64_join c, fun d hd => chunks64_le c d hd,
    fun pre d suf h hsuf => chunks64_full c pre d suf h hsuf⟩⟩

/-- Witness for the claim C9 theorem at a concrete input: a 130-byte
content is emitted as chunks of 64, 64 and 2 bytes. -/
theorem ollama_chatstream_claim_witness :
    ∃ ds, OllamaChatStream (some (List.replicate 130 'x')) = some ds ∧
      ds.flatten = List.replicate 130 'x' ∧
      (∀ d ∈ ds, d.length ≤ 64) ∧
      (∀ pre d suf, ds = pre ++ d :: suf → suf ≠ [] → d.length = 64) :=
  ollama_chatstream_claim.2 (List.replicate 130 'x')

/-! ### Schema-driven argument normalization (openai_router.cpp
`NormalizeToolArgsObject`, `CheckType`, `ValidateSchemaLoose`) -/

/-- Model of the `ToolSchema` struct. -/
structure ToolSchema where
  name : String := ""
  description : String := ""
  parameters : Json := Json.null
  deriving Repr, DecidableEq

/-- Model of `CheckType`.  The runtime distinguishes `is_number_integer`
from `is_number`; all numbers of the embedding are integers, so both map
to `isNum`. -/
def CheckType (t : String) (v : Json) : Bool :=
  if t = "string" then v.isStr
  else if t = "integer" then v.isNum
  else if t = "number" then v.isNum
  else if t = "boolean" then v.isBool
  else if t = "object" then v.isObj
  else if t = "array" then v.isArr
  else true

/-- Required-field pass of `ValidateSchemaLoose`: the first required name
missing from the arguments, if any. -/
def firstMissingRequired (args : Json) : List Json → Option String
  | [] => none
  | r :: rs =>
    match r with
    | .str k => if args.containsKey k then firstMissingRequired args rs else some k
    | _ => firstMissingRequired args rs

/-- Property-type pass of `ValidateSchemaLoose`: the first present
property whose declared type does not match, if any. -/
def firstBadPropType (args : Json) : List (String × Json) → Option String
  | [] => none
  | (k, ps) :: rest =>
    if args.containsKey k ∧ ps.isObj ∧ ps.containsKey "type" ∧ (ps.getKey "type").isStr then
      if CheckType ((ps.getKey "type").asStr) (args.getKey k) then firstBadPropType args rest
      else some k
    else firstBadPropType args rest

/-- Model of `ValidateSchemaLoose`: `none` means the arguments pass,
`some err` carries the rejection message. -/
def ValidateSchemaLoose (schema args : Json) : Option String :=
  if ¬schema.isObj then none
  else if schema.containsKey "type" ∧ (schema.getKey "type").isStr ∧
      ¬CheckType ((schema.getKey "type").asStr) args then
    some "arguments type mismatch"
  else
    let reqErr :=
      if schema.containsKey "required" ∧ (schema.getKey "required").isArr ∧ args.isObj then
        match schema.getKey "required" with
        | .arr rs => (firstMissingRequired args rs).map fun k => "missing required field: " ++ k
        | _ => none
      else none
    match reqErr with
    | some e => some e
    | none =>
      if schema.containsKey "properties" ∧ (schema.getKey "properties").isObj ∧ args.isObj then
        match schema.getKey "properties" with
        | .obj props => (firstBadPropType args props).map fun k => "field type mismatch: " ++ k
        | _ => none
      else none

/-- Model of the `move_key` helper inside `NormalizeToolArgsObject`: when
the schema declares `dst` and the arguments do not already carry it, the
first present alias among `srcs` is renamed to `dst`. -/
def moveKey (props : Json) (dst : String) (srcs : List String) (args : Json) : Json :=
  if ¬props.containsKey dst then args
  else if args.containsKey dst then args
  else
    match srcs.find? fun s => args.containsKey s with
    | none => args
    | some src => (args.setKey dst (args.getKey src)).eraseKey src

/-- The alias table of `NormalizeToolArgsObject`, in program order. -/
def normalizeRules : List (String × List String) :=
  [("filePath", ["path", "filepath", "file_path", "file", "filename", "uri"]),
   ("path", ["filePath", "filepath", "file_path", "file", "filename", "uri"]),
   ("uri", ["url", "path", "filePath"]),
   ("content", ["text", "data", "body", "contents"]),
   ("text", ["content", "data", "body"]),
   ("oldString", ["old", "from", "pattern", "search", "oldText"]),
   ("newString", ["new", "to", "replacement", "replace", "newText"]),
   ("replaceAll", ["all", "global"])]

/-- Model of `NormalizeToolArgsObject`: the eight `move_key` passes in
program order, guarded exactly as in the source. -/
def NormalizeToolArgsObject (schema : ToolSchema) (args : Json) : Json :=
  if ¬args.isObj then args
  else if ¬schema.parameters.isObj then args
  else if ¬(schema.parameters.containsKey "properties" ∧
      (schema.parameters.getKey "properties").isObj) then args
  else
    let props := schema.parameters.getKey "properties"
    normalizeRules.foldl (fun a r => moveKey props r.1 r.2 a) args

/-- Keys of an arguments object all declared as schema properties. -/
def argKeysDeclared (props : Json) : Json → Bool
  | .obj ms => ms.all fun kv => props.containsKey kv.1
  | _ => false

/-- Shape conformance of an arguments object to a schema, as used by
claim C6: the arguments are an object that passes the loose schema
validation and mention only declared properties. -/
def MatchesSchemaShape (schema : ToolSchema) (args : Json) : Prop :=
  args.isObj = true ∧ ValidateSchemaLoose schema.parameters args = none ∧
  argKeysDeclared (schema.parameters.getKey "properties") args = true

instance (schema : ToolSchema) (args : Json) : Decidable (MatchesSchemaShape schema args) :=
  inferInstanceAs (Decidable (_ ∧ _ ∧ _))

/-- A schema declaring both `path` and `uri` as string properties. -/
def pathUriSchema : ToolSchema :=
  { name := "t",
    parameters := Json.obj
      [("type", .str "object"),
       ("properties", .obj
         [("path", .obj [("type", .str "string")]),
          ("uri", .obj [("type", .str "string")])]),
       ("required", .arr [])] }

/-- Counterexample to claim C6 as stated: the arguments `{path: "x"}`
match the `pathUriSchema` shape, yet normalization renames `path` to
`uri` because the schema also declares `uri` and `path` is one of its
aliases. -/
theorem normalize_not_idempotent :
    MatchesSchemaShape pathUriSchema (Json.obj [("path", .str "x")]) ∧
    NormalizeToolArgsObject pathUriSchema (Json.obj [("path", .str "x")]) =
      Json.obj [("uri", .str "x")] ∧
    NormalizeToolArgsObject pathUriSchema (Json.obj [("path", .str "x")]) ≠
      Json.obj [("path", .str "x")] := by
  refine ⟨⟨rfl, rfl, rfl⟩, rfl, ?_⟩
  intro h
  rw [show NormalizeToolArgsObject pathUriSchema (Json.obj [("path", .str "x")]) =
    Json.obj [("uri", .str "x")] from rfl] at h
  simp at h

theorem moveKey_id (props : Json) (dst : String) (srcs : List String) (args : Json)
    (h : props.containsKey dst = false ∨ args.containsKey dst = true ∨
      ∀ s ∈ srcs, args.containsKey s = false) :
    moveKey props dst srcs args = args := by
  rcases h with h | h | h
  · rw [moveKey, if_pos (by simp [h])]
  · rw [moveKey]
    by_cases h1 : ¬props.containsKey dst = true
    · rw [if_pos h1]
    · rw [if_neg h1, if_pos h]
  · rw [moveKey]
    by_cases h1 : ¬props.containsKey dst = true
    · rw [if_pos h1]
    · rw [if_neg h1]
      by_cases h2 : args.containsKey dst = true
      · rw [if_pos h2]
      · rw [if_neg h2, List.find?_eq_none.mpr fun s hs => by simp [h s hs]]

/-- Truth of no alias rule being able to fire on the arguments: for each
rule, either the schema does not declare the destination, or the
arguments already carry it, or they carry none of its aliases. -/
def NoAliasApplies (props args : Json) : Prop :=
  ∀ r ∈ normalizeRules, props.containsKey r.1 = false ∨
    args.containsKey r.1 = true ∨ ∀ s ∈ r.2, args.containsKey s = false

instance (props args : Json) : Decidable (NoAliasApplies props args) :=
  inferInstanceAs (Decidable (∀ r ∈ normalizeRules, _))

/-- Claim C6 as amended: normalization is the identity on arguments that
match the schema shape, provided additionally that no alias rule
applies, that is, the schema does not declare a destination key absent
from the arguments while the arguments carry one of its aliases.  The
counterexample shows the extra condition is necessary. -/
theorem normalize_idempotent_claim (schema : ToolSchema) (args : Json)
    (hshape : MatchesSchemaShape schema args)
    (hno : NoAliasApplies (schema.parameters.getKey "properties") args) :
    NormalizeToolArgsObject schema args = args := by
  rw [NormalizeToolArgsObject]
  by_cases h1 : ¬args.isObj = true
  · rw [if_pos h1]
  · rw [if_neg h1]
    by_cases h2 : ¬schema.parameters.isObj = true
    · rw [if_pos h2]
    · rw [if_neg h2]
      by_cases h3 : ¬(schema.parameters.containsKey "properties" = true ∧
          (schema.parameters.getKey "properties").isObj = true)
      · rw [if_pos h3]
      · rw [if_neg h3]
        have hall : ∀ rules : List (String × List String),
            (∀ r ∈ rules, (schema.parameters.getKey "properties").containsKey r.1 = false ∨
              args.containsKey r.1 = true ∨ ∀ s ∈ r.2, args.containsKey s = false) →
            rules.foldl
              (fun a r => moveKey (schema.parameters.getKey "properties") r.1 r.2 a) args =
              args := by
          intro rules
          induction rules with
          | nil => intro _; rfl
          | cons r rules ih =>
            intro hr
            rw [List.foldl_cons, moveKey_id _ _ _ _ (hr r (by simp))]
            exact ih fun q hq => hr q (by simp [hq])
        exact hall normalizeRules hno

/-- Witness for the amended claim C6 theorem at concrete inputs: the
`edit` tool schema with already-canonical arguments is untouched. -/
theorem normalize_idempotent_claim_witness :
    NormalizeToolArgsObject
      { name := "edit",
        parameters := Json.obj
          [("type", .str "object"),
           ("properties", .obj
             [("filePath", .obj [("type", .str "string")]),
              ("oldString", .obj [("type", .str "string")]),
              ("newString", .obj [("type", .str "string")]),
              ("replaceAll", .obj [("type", .str "boolean")])]),
           ("required", .arr [.str "filePath", .str "oldString", .str "newString"])] }
      (Json.obj [("filePath", .str "a.txt"), ("oldString", .str "x"),
        ("newString", .str "y")]) =
      Json.obj [("filePath", .str "a.txt"), ("oldString", .str "x"),
        ("newString", .str "y")] := by
  exact normalize_idempotent_claim _ _ (by decide) (by decide)

/-! ### The llama_agent tool-call parser (extern/llama_cpp_agent
tool_call_parser.cpp)

The C++ parser throws on `get<std::string>` of a non-string value; a
throw inside the strict-JSON strategy aborts it, a throw inside the
regex strategy only skips the current match.  The member counter
`idCounter_` is threaded explicitly. -/

/-- Model of the `llama_agent::ToolCall` struct. -/
structure AgentToolCall where
  id : String := ""
  type : String := ""
  functionName : String := ""
  arguments : Json := Json.null
  deriving Repr

/-- Model of `llama_agent::ToolCall::isValid`. -/
def AgentToolCall.isValid (c : AgentToolCall) : Bool :=
  if c.id = "" then false
  else if c.type = "function" then (if c.functionName = "" then false else true)
  else false

/-- Outcome of `parseSingleToolCall`: a C++ throw, an invalid call
(`nullopt`), or a parsed call. -/
inductive SingleOutcome where
  | threw
  | invalid
  | ok (c : AgentToolCall)
  deriving Repr

/-- Model of `ToolCallParser::parseSingleToolCall`, with the id counter
threaded: the returned `Nat` is the counter after the call. -/
def parseSingleToolCall (callJson : Json) (ctr : Nat) : Nat × SingleOutcome :=
  let idStep : Nat × Option String :=
    if callJson.containsKey "id" then
      (ctr, if (callJson.getKey "id").isStr then some (callJson.getKey "id").asStr else none)
    else (ctr + 1, some ("call_" ++ toString (ctr + 1)))
  match idStep with
  | (ctr1, none) => (ctr1, .threw)
  | (ctr1, some idv) =>
    let typeOpt : Option String :=
      if callJson.containsKey "type" then
        if (callJson.getKey "type").isStr then some (callJson.getKey "type").asStr else none
      else some "function"
    match typeOpt with
    | none => (ctr1, .threw)
    | some tyv =>
      let func := callJson.getKey "function"
      let nameOpt : Option String :=
        if callJson.containsKey "function" ∧ func.containsKey "name" then
          if (func.getKey "name").isStr then some (func.getKey "name").asStr else none
        else some ""
      match nameOpt with
      | none => (ctr1, .threw)
      | some nm0 =>
        let a0 :=
          if callJson.containsKey "function" ∧ func.containsKey "arguments" then
            func.getKey "arguments"
          else Json.null
        let nameOpt2 : Option String :=
          if nm0 = "" ∧ callJson.containsKey "name" then
            if (callJson.getKey "name").isStr then some (callJson.getKey "name").asStr else none
          else some nm0
        match nameOpt2 with
        | none => (ctr1, .threw)
        | some nm =>
          let a1 := if a0.cppEmpty ∧ callJson.containsKey "arguments" then
            callJson.getKey "arguments" else a0
          let a2 := if a1.cppEmpty ∧ callJson.containsKey "parameters" then
            callJson.getKey "parameters" else a1
          let c : AgentToolCall := ⟨idv, tyv, nm, a2⟩
          (ctr1, if c.isValid then .ok c else .invalid)

/-- The loop of `ToolCallParser::parseFromJson` over the array items:
a `none` list models a throw escaping to the caller's catch, with the
counter as mutated so far (the C++ member survives the exception). -/
def parseFromJsonItems : List Json → Nat → Nat × Option (List AgentToolCall)
  | [], ctr => (ctr, some [])
  | item :: rest, ctr =>
    match parseSingleToolCall item ctr with
    | (ctr1, .threw) => (ctr1, none)
    | (ctr1, .invalid) => parseFromJsonItems rest ctr1
    | (ctr1, .ok c) =>
      match parseFromJsonItems rest ctr1 with
      | (ctr2, some cs) => (ctr2, some (c :: cs))
      | (ctr2, none) => (ctr2, none)

/-- Model of `ToolCallParser::parseFromJson`: a non-array input yields an
empty vector without throwing. -/
def agentParseFromJson (j : Json) (ctr : Nat) : Nat × Option (List AgentToolCall) :=
  match j with
  | .arr items => parseFromJsonItems items ctr
  | _ => (ctr, some [])

/-- C-locale `tolower` on the ASCII letters. -/
def cppToLower (c : Char) : Char :=
  if 'A' ≤ c ∧ c ≤ 'Z' then Char.ofNat (c.toNat + 32) else c

/-- Case-insensitive literal matcher: drops `pat` (already lowercase)
from the head of the text, lowering each text character first. -/
def dropLitCI : List Char → List Char → Option (List Char)
  | [], cs => some cs
  | _ :: _, [] => none
  | p :: ps, c :: cs => if cppToLower c = p then dropLitCI ps cs else none

/-- The regex payload `"type"\s*:\s*"function"` tested at the head of a
character run (case-insensitive, as `std::regex::icase`). -/
def typeFunctionAt (cs : List Char) : Bool :=
  match dropLitCI "\"type\"".data cs with
  | none => false
  | some r1 =>
    match r1.dropWhile isCppSpace with
    | ':' :: r3 => (dropLitCI "\"function\"".data (r3.dropWhile isCppSpace)).isSome
    | _ => false

/-- Whether the payload occurs anywhere in a run. -/
def containsTypeFunction : List Char → Bool
  | [] => false
  | c :: cs => typeFunctionAt (c :: cs) || containsTypeFunction cs

/-- Truth of a character being a brace. -/
def isBrace (c : Char) : Bool := c = '{' || c = '}'

theorem length_dropWhile_le (p : Char → Bool) (cs : List Char) :
    (cs.dropWhile p).length ≤ cs.length := by
  induction cs with
  | nil => simp [List.dropWhile]
  | cons c cs ih =>
    by_cases h : p c
    · rw [List.dropWhile]
      simp only [h]
      exact Nat.le_trans ih (by simp)
    · rw [List.dropWhile]
      simp only [Bool.not_eq_true] at h
      simp only [h]
      exact Nat.le_refl _

/-- The successive matches of the regex
`\{[^{}]*"type"\s*:\s*"function"[^{}]*\}` over the text: each match is a
flat brace block containing the payload, and scanning resumes after the
closing brace of a match or one character after a failed opening
brace. -/
def regexMatches : List Char → List (List Char)
  | [] => []
  | c :: cs =>
    if c = '{' then
      let run := cs.takeWhile fun d => !isBrace d
      let rest := cs.dropWhile fun d => !isBrace d
      if headIs '}' rest then
        if containsTypeFunction run then
          ('{' :: (run ++ ['}'])) :: regexMatches rest.tail
        else regexMatches cs
      else regexMatches cs
    else regexMatches cs
  termination_by cs => cs.length
  decreasing_by
    all_goals simp_wf
    · have h1 : (cs.dropWhile fun d => !isBrace d).length ≤ cs.length :=
        length_dropWhile_le _ _
      have h2 : (cs.dropWhile fun d => !isBrace d).tail.length ≤
          (cs.dropWhile fun d => !isBrace d).length := by
        cases cs.dropWhile fun d => !isBrace d <;> simp
      omega
    all_goals omega

/-- Model of `ToolCallParser::parseFromJsonString` applied to the match
list: a parse failure or a throw skips the match, invalid calls are
dropped. -/
def parseMatchList : List (List Char) → Nat → Nat × List AgentToolCall
  | [], ctr => (ctr, [])
  | m :: ms, ctr =>
    match Json.parse (String.mk m) with
    | none => parseMatchList ms ctr
    | some j =>
      match parseSingleToolCall j ctr with
      | (ctr1, .ok c) =>
        let r := parseMatchList ms ctr1
        (r.1, c :: r.2)
      | (ctr1, _) => parseMatchList ms ctr1

/-- Model of `ToolCallParser::parseFromJsonString`. -/
def agentParseFromJsonString (s : String) (ctr : Nat) : Nat × List AgentToolCall :=
  parseMatchList (regexMatches s.data) ctr

/-- Model of `ToolCallParser::parse`: the strict strategy runs when the
whole response is JSON with a `tool_calls` field, and any throw inside
it falls back to the regex strategy. -/
def agentParse (response : String) (ctr : Nat) : Nat × List AgentToolCall :=
  match Json.parse response with
  | some j =>
    if j.containsKey "tool_calls" then
      match agentParseFromJson (j.getKey "tool_calls") ctr with
      | (ctr1, some cs) => (ctr1, cs)
      | (ctr1, none) => agentParseFromJsonString response ctr1
    else agentParseFromJsonString response ctr
  | none => agentParseFromJsonString response ctr

/-! ### The runtime tool-call extraction pipeline (tooling.cpp)

`NewId` draws on the clock and a random generator; the model abstracts
it as an oracle `newId : Nat → String` giving the value of the n-th
call, with the number of calls made threaded as a counter. -/

/-- Model of the runtime `ToolCall` struct. -/
structure ToolCall where
  id : String := ""
  name : String := ""
  arguments_json : String := ""
  deriving Repr, DecidableEq

/-- The `set_args` body shared by `ExtractToolCallsFromJson::make_call`:
string arguments are kept raw when they loose-parse and re-quoted
otherwise; null becomes `\x7b\x7d`; everything else is dumped. -/
def setArgsString (a : Json) : String :=
  if a.isStr then
    (if (ParseJsonLoose a.asStr).isSome then a.asStr else (Json.str a.asStr).dump)
  else if a.isObj ∨ a.isArr ∨ a.isNum ∨ a.isBool then a.dump
  else if a.isNull then "{}"
  else a.dump

/-- The id chosen by `make_call`: the item's string `id` if present,
else the fresh `NewId`. -/
def makeCallId (newId : Nat → String) (k : Nat) (item : Json) : String :=
  if item.containsKey "id" ∧ (item.getKey "id").isStr then
    (item.getKey "id").asStr else newId k

/-- The name chosen by `make_call`: `name`, then `tool`, then
`toolName`, then `function.name`. -/
def makeCallName (item : Json) : String :=
  let n0 := if item.containsKey "name" ∧ (item.getKey "name").isStr then
    (item.getKey "name").asStr else ""
  let n1 := if n0 = "" ∧ item.containsKey "tool" ∧ (item.getKey "tool").isStr then
    (item.getKey "tool").asStr else n0
  let n2 := if n1 = "" ∧ item.containsKey "toolName" ∧ (item.getKey "toolName").isStr then
    (item.getKey "toolName").asStr else n1
  let fn := item.getKey "function"
  if n2 = "" ∧ item.containsKey "function" ∧ fn.isObj ∧ fn.containsKey "name" ∧
      (fn.getKey "name").isStr then (fn.getKey "name").asStr else n2

/-- The argument value chosen by `make_call`: `arguments`, `args`,
`input`, then `function.arguments`; `none` means `has_args` stays
false. -/
def makeCallArgs (item : Json) : Option Json :=
  if item.containsKey "arguments" then some (item.getKey "arguments")
  else if item.containsKey "args" then some (item.getKey "args")
  else if item.containsKey "input" then some (item.getKey "input")
  else if item.containsKey "function" ∧ (item.getKey "function").isObj ∧
      (item.getKey "function").containsKey "arguments" then
    some ((item.getKey "function").getKey "arguments")
  else none

/-- Model of `make_call` inside `ExtractToolCallsFromJson`, threading the
`NewId` call counter. -/
def makeCall (newId : Nat → String) (k : Nat) (item : Json) : Nat × Option ToolCall :=
  if ¬item.isObj then (k, none)
  else
    match makeCallArgs item with
    | none => (k + 1, none)
    | some a =>
      let aj := setArgsString a
      let aj := if aj = "" then "{}" else aj
      if makeCallName item = "" then (k + 1, none)
      else (k + 1, some ⟨makeCallId newId k item, makeCallName item, aj⟩)

/-- The singleton-key pass of `ExtractToolCallsFromJson` over
`tool_call`, `toolCall`, `toolcall`. -/
def trySingletonKeys (newId : Nat → String) (root : Json) :
    List String → Nat → Nat × Option ToolCall
  | [], k => (k, none)
  | key :: keys, k =>
    if root.containsKey key ∧ (root.getKey key).isObj then
      match makeCall newId k (root.getKey key) with
      | (k1, some c) => (k1, some c)
      | (k1, none) => trySingletonKeys newId root keys k1
    else trySingletonKeys newId root keys k

/-- The first of the array keys `tool_calls`, `toolCalls`, `toolcalls`
holding an array. -/
def firstArrayKey (root : Json) : List String → Option (List Json)
  | [] => none
  | key :: keys =>
    if root.containsKey key ∧ (root.getKey key).isArr then
      match root.getKey key with
      | .arr xs => some xs
      | _ => none
    else firstArrayKey root keys

/-- The per-item loop of `ExtractToolCallsFromJson` over the array. -/
def extractCallsList (newId : Nat → String) : List Json → Nat → Nat × List ToolCall
  | [], k => (k, [])
  | it :: its, k =>
    match makeCall newId k it with
    | (k1, some c) =>
      let r := extractCallsList newId its k1
      (r.1, c :: r.2)
    | (k1, none) => extractCallsList newId its k1

/-- The `opencode` unwrapping shared by `ExtractToolCallsFromJson` and
`ExtractFinalFromAssistantJson`. -/
def opencodeRoot (original : Json) : Json :=
  if original.containsKey "opencode" ∧ (original.getKey "opencode").isObj then
    original.getKey "opencode" else original

/-- Model of `ExtractToolCallsFromJson`. -/
def ExtractToolCallsFromJson (newId : Nat → String) (original : Json) (k : Nat) :
    Nat × Option (List ToolCall) :=
  if ¬original.isObj then (k, none)
  else
    match trySingletonKeys newId (opencodeRoot original)
        ["tool_call", "toolCall", "toolcall"] k with
    | (k1, some c) => (k1, some [c])
    | (k1, none) =>
      match makeCall newId k1 (opencodeRoot original) with
      | (k2, some c) => (k2, some [c])
      | (k2, none) =>
        match firstArrayKey (opencodeRoot original)
            ["tool_calls", "toolCalls", "toolcalls"] with
        | none => (k2, none)
        | some items =>
          match extractCallsList newId items k2 with
          | (k3, cs) => (k3, if cs = [] then none else some cs)

/-- Adaptation of one agent-parser call into a runtime `ToolCall`
(tooling.cpp lines 1939-1956, before the nonempty-name filter). -/
def adaptAgentCall (c : AgentToolCall) : ToolCall :=
  let aj :=
    if c.arguments.isStr then
      (if (ParseJsonLoose c.arguments.asStr).isSome then c.arguments.asStr
       else (Json.str c.arguments.asStr).dump)
    else if c.arguments.isNull then "{}"
    else c.arguments.dump
  let aj := if aj = "" then "{}" else aj
  { id := c.id, name := c.functionName, arguments_json := aj }

/-! ### Position-based string primitives for the text scanners -/

/-- `substr(start, len)`. -/
def substrL (s : List Char) (start len : Nat) : List Char := (s.drop start).take len

/-- `substr(start, end - start)` where the C++ subtraction is on
`size_t`: an end before the start wraps to a huge count, which `substr`
clamps to the rest of the string. -/
def substrWrap (s : List Char) (start fin : Nat) : List Char :=
  if start ≤ fin then substrL s start (fin - start) else s.drop start

/-- Guarded indexed access `s[i]`. -/
def charAt (s : List Char) (i : Nat) : Char := s.getD i (Char.ofNat 0)

/-- Model of `std::string::find(pat, pos)`: the first occurrence
starting at or after `pos`, `none` for npos. -/
def findFrom (s pat : List Char) (pos : Nat) : Option Nat :=
  (List.range (s.length + 1)).find? fun i => decide (pos ≤ i) && pat.isPrefixOf (s.drop i)

/-- Model of `std::string::rfind(pat, pos)`: the last occurrence
starting at or before `pos`. -/
def rfindAt (s pat : List Char) (p0 : Nat) : Option Nat :=
  ((List.range (s.length + 1)).filter fun i =>
    decide (i ≤ p0) && pat.isPrefixOf (s.drop i)).getLast?

/-- Index after the `isspace` run starting at `p`. -/
def skipSpacesFrom (s : List Char) (p : Nat) : Nat :=
  p + ((s.drop p).takeWhile isCppSpace).length

/-- C-locale `isalpha` on ASCII. -/
def isCppAlpha (c : Char) : Bool :=
  ('A' ≤ c && c ≤ 'Z') || ('a' ≤ c && c ≤ 'z')

/-- C-locale `isalnum` on ASCII. -/
def isCppAlnum (c : Char) : Bool := isCppAlpha c || isDigitC c

/-- Model of `IsToolNameChar`. -/
def IsToolNameChar (c : Char) : Bool :=
  isCppAlnum c || c = '_' || c = '-' || c = '.' || c = ':' || c = '/'

/-! ### The tagged-text scanner (`ExtractToolCallsFromTaggedText`) -/

/-- Model of the `find_attr` lambda: looks the attribute up in the
lowered tag, then reads `= value` (quoted or bare) from the original
tag text. -/
def findAttr (tagText tagLower attr : List Char) : Option (List Char) :=
  match findFrom tagLower attr 0 with
  | none => none
  | some q =>
    let p := skipSpacesFrom tagText (q + attr.length)
    if p < tagText.length ∧ charAt tagText p = '=' then
      let p := skipSpacesFrom tagText (p + 1)
      if p < tagText.length then
        let c := charAt tagText p
        if c = '"' ∨ c = Char.ofNat 39 then
          match findFrom tagText [c] (p + 1) with
          | none => none
          | some qe => some (substrL tagText (p + 1) (qe - (p + 1)))
        else
          let e := p + ((tagText.drop p).takeWhile fun d => !isCppSpace d && !(d == '>')).length
          if e ≤ p then none else some (substrL tagText p (e - p))
      else none
    else none

/-- The `cat`-specific cleanup of a raw argument (tooling.cpp lines
422-432): strip a leading `cat`, backquotes and trailing semicolons. -/
def catCleanup (raw0 : List Char) : List Char :=
  let rawLower := raw0.map cppToLower
  let raw1 :=
    if "cat".data.isPrefixOf rawLower then
      let p := skipSpacesFrom raw0 3
      if p < raw0.length then trimChars (raw0.drop p) else raw0
    else raw0
  let raw2 := if raw1 ≠ [] ∧ headIs '`' raw1 then trimChars (raw1.drop 1) else raw1
  let raw3 := (raw2.reverse.dropWhile fun c => c = '`' || c = ';').reverse
  trimChars raw3

/-- The raw (non-JSON) argument cleanup of the tagged scanner
(tooling.cpp lines 420-433). -/
def taggedRawArg (name : String) (argsText : List Char) : List Char :=
  let raw := trimChars argsText
  let raw := match findFrom raw ['<'] 0 with
    | some lt => trimChars (raw.take lt)
    | none => raw
  if raw ≠ [] ∧ name = "cat" then catCleanup raw else raw

/-- The arguments string of a tagged-text call (tooling.cpp lines
415-438). -/
def taggedArgsJson (name : String) (argsText : List Char) : String :=
  if argsText ≠ [] then
    match ParseJsonLoose (String.mk argsText) with
    | some j => j.dump
    | none => (Json.str (String.mk (taggedRawArg name argsText))).dump
  else "{}"

/-- Construction of the tagged-text call from the tag name and the
argument text (tooling.cpp lines 412-440). -/
def mkTaggedCall (idv : String) (name : String) (argsText : List Char) : ToolCall :=
  { id := idv, name := if name = "cat" then "read" else name,
    arguments_json := taggedArgsJson name argsText }

/-- The argument-text selection of the tagged scanner when an
`<arg_value>` tag is absent before the block end (tooling.cpp lines
391-405). -/
def taggedArgsNoTag (t lower : List Char) (afterName blockEnd : Nat) : List Char :=
  match findFrom lower "</arg_value>".data afterName with
  | some m =>
    if m < blockEnd then
      let rawStart :=
        match rfindAt lower "</arg_key>".data m with
        | some kc => if afterName ≤ kc then kc + 10 else afterName
        | none => afterName
      let a1 := if rawStart ≤ m then trimChars (substrL t rawStart (m - rawStart)) else []
      if a1 = [] then
        let raw2 := m + 12
        if raw2 < blockEnd then trimChars (substrWrap t raw2 blockEnd) else []
      else a1
    else trimChars (substrWrap t afterName blockEnd)
  | none => trimChars (substrWrap t afterName blockEnd)

/-- The argument-text selection of the tagged scanner (tooling.cpp lines
383-406). -/
def taggedArgsText (t lower : List Char) (afterName blockEnd : Nat) : List Char :=
  match findFrom lower "<arg_value>".data afterName with
  | some a =>
    if a < blockEnd then
      let astart := a + 11
      let aend := match findFrom lower "</arg_value>".data astart with
        | none => blockEnd
        | some e => if e > blockEnd then blockEnd else e
      trimChars (substrWrap t astart aend)
    else taggedArgsNoTag t lower afterName blockEnd
  | none => taggedArgsNoTag t lower afterName blockEnd

/-- The tag name and the index after it (tooling.cpp lines 337-370):
the `name` attribute of the tag, else the tool-name-character run after
the closing `>`. -/
def taggedName (t lower : List Char) (start tagClose : Nat) : String × Nat :=
  let tagText := substrL t start (tagClose - start + 1)
  let tagLower := substrL lower start (tagClose - start + 1)
  let name0 : String := match findAttr tagText tagLower "name".data with
    | some n => String.mk (trimChars n)
    | none => ""
  if name0 = "" then
    let nameStart := skipSpacesFrom t (tagClose + 1)
    let nameEnd := nameStart + ((t.drop nameStart).takeWhile IsToolNameChar).length
    (String.mk (trimChars (substrL t nameStart (nameEnd - nameStart))), nameEnd)
  else (name0, tagClose + 1)

/-- The end of the current tag block: the next tool tag, or the end of
the text (tooling.cpp lines 377-381). -/
def taggedBlockEnd (t lower : List Char) (blockStart : Nat) : Nat :=
  match (match findFrom lower "<tool_call".data blockStart,
        findFrom lower "<toolcall".data blockStart with
      | none, o => o
      | some a, some b => if b < a then some b else some a
      | some a, none => some a) with
  | none => t.length
  | some b => b

/-- The argument text after the first-object narrowing (tooling.cpp
lines 408-410). -/
def taggedArgsFinal (t lower : List Char) (afterName blockEnd : Nat) : List Char :=
  let a0 := taggedArgsText t lower afterName blockEnd
  if a0 ≠ [] then
    match ExtractFirstJsonObject a0 with
    | some f => trimChars f
    | none => a0
  else a0

/-- The scan loop of `ExtractToolCallsFromTaggedText`.  The position
strictly increases at every iteration, so fuel `t.length + 1` never runs
out. -/
def taggedLoop (newId : Nat → String) (t lower : List Char) :
    Nat → Nat → Nat → List ToolCall × Nat
  | 0, _, k => ([], k)
  | fuel + 1, pos, k =>
    if ¬pos < lower.length then ([], k)
    else
      match (findFrom lower "<tool_call".data pos).orElse
          (fun _ => findFrom lower "<toolcall".data pos) with
      | none => ([], k)
      | some start =>
        match findFrom lower ['>'] start with
        | none => ([], k)
        | some tagClose =>
          if (taggedName t lower start tagClose).1 = "" then
            taggedLoop newId t lower fuel (tagClose + 1) k
          else
            (mkTaggedCall (newId k) (taggedName t lower start tagClose).1
                (taggedArgsFinal t lower (taggedName t lower start tagClose).2
                  (taggedBlockEnd t lower (tagClose + 1))) ::
              (taggedLoop newId t lower fuel (taggedBlockEnd t lower (tagClose + 1)) (k + 1)).1,
             (taggedLoop newId t lower fuel (taggedBlockEnd t lower (tagClose + 1)) (k + 1)).2)

/-- Model of `ExtractToolCallsFromTaggedText`. -/
def ExtractToolCallsFromTaggedText (newId : Nat → String) (s : String) (k : Nat) :
    Nat × Option (List ToolCall) :=
  let t := s.data
  let lower := t.map cppToLower
  let r := taggedLoop newId t lower (t.length + 1) 0 k
  (r.2, if r.1 = [] then none else some r.1)

/-! ### The todowrite command scanner (`ExtractToolCallsFromCommandText`) -/

/-- Escape-aware scan for the closing quote: the number of characters
before the unescaped quote (or the whole rest). -/
def scanQuoted (q : Char) : List Char → Bool → Nat → Nat
  | [], _, n => n
  | c :: cs, esc, n =>
    if esc then scanQuoted q cs false (n + 1)
    else if c = '\\' then scanQuoted q cs true (n + 1)
    else if c = q then n
    else scanQuoted q cs false (n + 1)

/-- One `key = value` value scan (tooling.cpp lines 549-582): quoted,
balanced-bracketed, or bare; `none` models the `break` on a failed
balanced extraction. -/
def todoValue (t : List Char) (p : Nat) : Option (List Char × Nat) :=
  let c := charAt t p
  if c = '"' ∨ c = Char.ofNat 39 then
    let vstart := p + 1
    let vlen := scanQuoted c (t.drop vstart) false 0
    let pEnd := vstart + vlen
    let pAfter := if pEnd < t.length ∧ charAt t pEnd = c then pEnd + 1 else pEnd
    some (substrL t vstart vlen, pAfter)
  else if c = '{' ∨ c = '[' then
    match ExtractBalanced (t.drop p) with
    | some b => some (b, p + b.length)
    | none => none
  else
    let vlen := ((t.drop p).takeWhile fun d =>
      !isCppSpace d && !(d == ',') && !(d == ';')).length
    some (substrL t p vlen, p + vlen)

/-- The inner argument loop of the todowrite scanner (tooling.cpp lines
511-595): accumulates `key = value` pairs, or parses one balanced JSON
object (returned separately, as the C++ pushes a call and breaks). -/
def todoArgsLoop (t : List Char) : Nat → Nat → Json → Json × Option Json
  | 0, _, args => (args, none)
  | fuel + 1, p0, args =>
    let p := p0 + ((t.drop p0).takeWhile fun c =>
      isCppSpace c || c == ',' || c == ';').length
    if ¬p < t.length then (args, none)
    else if charAt t p = '{' then
      match ExtractBalanced (t.drop p) with
      | some obj =>
        match Json.parse (String.mk obj) with
        | some j => if j.isObj then (args, some j) else (args, none)
        | none => (args, none)
      | none => (args, none)
    else
      let keyEnd := p + ((t.drop p).takeWhile fun c => isCppAlnum c || c == '_').length
      if keyEnd ≤ p then (args, none)
      else
        let key := String.mk (substrL t p (keyEnd - p))
        let p2 := skipSpacesFrom t keyEnd
        if ¬(p2 < t.length ∧ charAt t p2 = '=') then (args, none)
        else
          let p3 := skipSpacesFrom t (p2 + 1)
          if ¬p3 < t.length then (args, none)
          else
            match todoValue t p3 with
            | none => (args, none)
            | some (rawValue, p4) =>
              let trimmed := trimChars rawValue
              let v : Json :=
                if trimmed ≠ [] ∧ (headIs '{' trimmed ∨ headIs '[' trimmed) then
                  match Json.parse (String.mk trimmed) with
                  | some j => j
                  | none => Json.str (String.mk trimmed)
                else Json.str (String.mk trimmed)
              todoArgsLoop t fuel p4 (args.setKey key v)

/-- The word-boundary guard of the todowrite scanner (tooling.cpp lines
497-500). -/
def todoGuard (lower : List Char) (start : Nat) : Prop :=
  (start = 0 ∨ isCppSpace (charAt lower (start - 1)) = true ∨
    charAt lower (start - 1) = '`') ∧
  (¬start + 9 < lower.length ∨ isCppSpace (charAt lower (start + 9)) = true ∨
    charAt lower (start + 9) = ':' ∨ charAt lower (start + 9) = '(')

instance (lower : List Char) (start : Nat) : Decidable (todoGuard lower start) :=
  inferInstanceAs (Decidable (_ ∧ _))

/-- The argument start index: one past a `:` right after the keyword
(tooling.cpp lines 506-507). -/
def todoArgsStart (t : List Char) (after : Nat) : Nat :=
  if after < t.length ∧ charAt t after = ':' then after + 1 else after

/-- The outer loop of the todowrite scanner.  `hasCall` mirrors the C++
check `!calls.empty() && calls.back().name == tool` (every call this
scanner pushes is named `todowrite`, so the check is reachability of a
prior push). -/
def todoLoop (newId : Nat → String) (t lower : List Char) :
    Nat → Nat → Nat → Bool → List ToolCall × Nat
  | 0, _, k, _ => ([], k)
  | fuel + 1, pos, k, hasCall =>
    if ¬pos < lower.length then ([], k)
    else
      match findFrom lower "todowrite".data pos with
      | none => ([], k)
      | some start =>
        if ¬todoGuard lower start then todoLoop newId t lower fuel (start + 9) k hasCall
        else
          match todoArgsLoop t (t.length + 1) (todoArgsStart t (start + 9)) (Json.obj []) with
          | (_, some j) =>
            (⟨newId k, "todowrite", j.dump⟩ ::
                (todoLoop newId t lower fuel (start + 9) (k + 1) true).1,
             (todoLoop newId t lower fuel (start + 9) (k + 1) true).2)
          | (args, none) =>
            if hasCall then todoLoop newId t lower fuel (start + 9) k hasCall
            else if ¬args.cppEmpty then
              (⟨newId k, "todowrite", args.dump⟩ ::
                  (todoLoop newId t lower fuel (start + 9) (k + 1) true).1,
               (todoLoop newId t lower fuel (start + 9) (k + 1) true).2)
            else todoLoop newId t lower fuel (start + 9) k hasCall

/-- Model of `ExtractToolCallsFromCommandText`. -/
def ExtractToolCallsFromCommandText (newId : Nat → String) (s : String) (k : Nat) :
    Nat × Option (List ToolCall) :=
  let t := s.data
  let lower := t.map cppToLower
  let r := todoLoop newId t lower (t.length + 1) 0 k false
  (r.2, if r.1 = [] then none else some r.1)

/-! ### The cat command scanner (`ExtractToolCallsFromCatCommandText`) -/

/-- The word-boundary guard of the cat scanner (tooling.cpp lines
630-633). -/
def catGuard (lower : List Char) (start : Nat) : Prop :=
  (start = 0 ∨ isCppSpace (charAt lower (start - 1)) = true ∨
    charAt lower (start - 1) = '`' ∨ charAt lower (start - 1) = ':') ∧
  (¬start + 3 < lower.length ∨ isCppSpace (charAt lower (start + 3)) = true ∨
    charAt lower (start + 3) = '`')

instance (lower : List Char) (start : Nat) : Decidable (catGuard lower start) :=
  inferInstanceAs (Decidable (_ ∧ _))

/-- The raw path token after `cat`: quoted or bare (tooling.cpp lines
646-672). -/
def catRawPath (t : List Char) (p : Nat) : List Char :=
  if charAt t p = '"' ∨ charAt t p = Char.ofNat 39 then
    substrL t (p + 1) (scanQuoted (charAt t p) (t.drop (p + 1)) false 0)
  else
    substrL t p (((t.drop p).takeWhile fun d =>
      !isCppSpace d && !(d == ';') && !(d == ',') && !(d == '<') && !(d == '`')).length)

/-- The cleaned path of the cat scanner (tooling.cpp lines 674-677). -/
def catPath (t : List Char) (p : Nat) : List Char :=
  let path := trimChars (catRawPath t p)
  let path := match findFrom path ['<'] 0 with
    | some lt => trimChars (path.take lt)
    | none => path
  trimChars ((path.reverse.dropWhile fun c => c = '`' || c = ';' || c = ',').reverse)

/-- The loop of the cat scanner. -/
def catLoop (newId : Nat → String) (t lower : List Char) :
    Nat → Nat → Nat → List ToolCall × Nat
  | 0, _, k => ([], k)
  | fuel + 1, pos, k =>
    if ¬pos < lower.length then ([], k)
    else
      match findFrom lower "cat".data pos with
      | none => ([], k)
      | some start =>
        if ¬catGuard lower start then catLoop newId t lower fuel (start + 3) k
        else if ¬skipSpacesFrom t (start + 3) < t.length then
          catLoop newId t lower fuel (start + 3) k
        else if catPath t (skipSpacesFrom t (start + 3)) ≠ [] then
          (⟨newId k, "read",
              (Json.obj [("filePath",
                Json.str (String.mk (catPath t (skipSpacesFrom t (start + 3)))))]).dump⟩ ::
            (catLoop newId t lower fuel (start + 3) (k + 1)).1,
           (catLoop newId t lower fuel (start + 3) (k + 1)).2)
        else catLoop newId t lower fuel (start + 3) k

/-- Model of `ExtractToolCallsFromCatCommandText`. -/
def ExtractToolCallsFromCatCommandText (newId : Nat → String) (s : String) (k : Nat) :
    Nat × Option (List ToolCall) :=
  let t := s.data
  let lower := t.map cppToLower
  let r := catLoop newId t lower (t.length + 1) 0 k
  (r.2, if r.1 = [] then none else some r.1)

/-! ### The full pipeline (`ParseToolCallsFromAssistantText`) -/

/-- The three text-scanner fallbacks in order. -/
def fallbackScanners (newId : Nat → String) (s : String) (k : Nat) :
    Nat × Option (List ToolCall) :=
  match ExtractToolCallsFromTaggedText newId s k with
  | (k1, some cs) => (k1, some cs)
  | (k1, none) =>
    match ExtractToolCallsFromCommandText newId s k1 with
    | (k2, some cs) => (k2, some cs)
    | (k2, none) => ExtractToolCallsFromCatCommandText newId s k2

/-- The extern parser's calls adapted to runtime calls and filtered to
nonempty names (tooling.cpp lines 1937-1957). -/
def adaptedAgentCalls (s : String) : List ToolCall :=
  ((agentParse s 0).2.map adaptAgentCall).filter fun rc => rc.name != ""

/-- Model of `ParseToolCallsFromAssistantText`: the extern agent parser
(fresh id counter), then loose JSON extraction, then the text
scanners. -/
def ParseToolCallsFromAssistantText (newId : Nat → String) (s : String) (k : Nat) :
    Nat × Option (List ToolCall) :=
  if ¬(agentParse s 0).2.isEmpty ∧ ¬(adaptedAgentCalls s).isEmpty then
    (k, some (adaptedAgentCalls s))
  else
    match ParseJsonLoose s with
    | some j =>
      match ExtractToolCallsFromJson newId j k with
      | (k1, some cs) => (k1, some cs)
      | (k1, none) => fallbackScanners newId s k1
    | none => fallbackScanners newId s k

/-! ### Shape invariants of the extraction pipeline -/

/-- The per-call invariant of claim C1 in its tenable form: a nonempty
name and an arguments string the runtime can read back, strictly or
loosely. -/
def GoodCall (c : ToolCall) : Prop :=
  c.name ≠ "" ∧ (JsonValid c.arguments_json = true ∨ LooseValid c.arguments_json = true)

theorem jsonValid_braces : JsonValid "{}" = true := by decide

theorem goodArgs_ite (s : String)
    (h : JsonValid s = true ∨ LooseValid s = true) :
    JsonValid (if s = "" then "{}" else s) = true ∨
      LooseValid (if s = "" then "{}" else s) = true := by
  by_cases he : s = ""
  · rw [if_pos he]; exact Or.inl jsonValid_braces
  · rwa [if_neg he]

theorem setArgsString_good (a : Json) :
    JsonValid (setArgsString a) = true ∨ LooseValid (setArgsString a) = true := by
  rw [setArgsString]
  by_cases h1 : a.isStr = true
  · rw [if_pos h1]
    by_cases h2 : (ParseJsonLoose a.asStr).isSome = true
    · rw [if_pos h2]; exact Or.inr h2
    · rw [if_neg h2]; exact Or.inl (JsonValid_dump _)
  · rw [if_neg h1]
    by_cases h3 : (a.isObj = true ∨ a.isArr = true ∨ a.isNum = true ∨ a.isBool = true)
    · rw [if_pos h3]; exact Or.inl (JsonValid_dump _)
    · rw [if_neg h3]
      by_cases h4 : a.isNull = true
      · rw [if_pos h4]; exact Or.inl jsonValid_braces
      · rw [if_neg h4]; exact Or.inl (JsonValid_dump _)

theorem makeCall_good (newId : Nat → String) (k : Nat) (item : Json) (k1 : Nat)
    (c : ToolCall) (h : makeCall newId k item = (k1, some c)) : GoodCall c := by
  rw [makeCall] at h
  split at h
  · exact absurd h (by simp)
  · split at h
    · exact absurd h (by simp)
    · simp only [] at h
      split at h
      · exact absurd h (by simp)
      · rename_i n3ne
        cases h
        exact ⟨by simpa using n3ne, goodArgs_ite _ (setArgsString_good _)⟩

theorem extractCallsList_good (newId : Nat → String) :
    ∀ (items : List Json) (k : Nat) (c : ToolCall),
      c ∈ (extractCallsList newId items k).2 → GoodCall c := by
  intro items
  induction items with
  | nil => intro k c hc; simp [extractCallsList] at hc
  | cons it its ih =>
    intro k c hc
    rw [extractCallsList] at hc
    split at hc
    · rename_i k1 c1 heq
      simp only [List.mem_cons] at hc
      rcases hc with hc | hc
      · exact hc ▸ makeCall_good newId k it k1 c1 heq
      · exact ih _ _ hc
    · exact ih _ _ hc

theorem trySingletonKeys_good (newId : Nat → String) (root : Json) :
    ∀ (keys : List String) (k k1 : Nat) (c : ToolCall),
      trySingletonKeys newId root keys k = (k1, some c) → GoodCall c := by
  intro keys
  induction keys with
  | nil => intro k k1 c h; simp [trySingletonKeys] at h
  | cons key keys ih =>
    intro k k1 c h
    rw [trySingletonKeys] at h
    split at h
    · split at h
      · rename_i heq
        cases h
        exact makeCall_good newId k _ _ _ heq
      · exact ih _ _ _ h
    · exact ih _ _ _ h

theorem extractToolCallsFromJson_good (newId : Nat → String) (original : Json)
    (k k1 : Nat) (cs : List ToolCall)
    (h : ExtractToolCallsFromJson newId original k = (k1, some cs)) :
    cs ≠ [] ∧ ∀ c ∈ cs, GoodCall c := by
  rw [ExtractToolCallsFromJson] at h
  split at h
  · exact absurd h (by simp)
  · split at h
    · rename_i heq
      cases h
      refine ⟨by simp, ?_⟩
      intro c hc
      simp only [List.mem_singleton] at hc
      exact hc ▸ trySingletonKeys_good newId _ _ _ _ _ heq
    · split at h
      · rename_i heq
        cases h
        refine ⟨by simp, ?_⟩
        intro c hc
        simp only [List.mem_singleton] at hc
        exact hc ▸ makeCall_good newId _ _ _ _ heq
      · rename_i k2 heqMC
        split at h
        · exact absurd h (by simp)
        · rename_i items heq2
          split at h
          rename_i pr k3 cs3 heq3
          split at h
          · exact absurd h (by simp)
          · rename_i hne
            cases h
            refine ⟨hne, ?_⟩
            intro c hc
            have hgood := extractCallsList_good newId items k2 c
            rw [heq3] at hgood
            exact hgood hc

theorem adaptAgentCall_args_good (c : AgentToolCall) :
    JsonValid (adaptAgentCall c).arguments_json = true ∨
      LooseValid (adaptAgentCall c).arguments_json = true := by
  rw [adaptAgentCall]
  refine goodArgs_ite _ ?_
  by_cases h1 : c.arguments.isStr = true
  · rw [if_pos h1]
    by_cases h2 : (ParseJsonLoose c.arguments.asStr).isSome = true
    · rw [if_pos h2]; exact Or.inr h2
    · rw [if_neg h2]; exact Or.inl (JsonValid_dump _)
  · rw [if_neg h1]
    by_cases h3 : c.arguments.isNull = true
    · rw [if_pos h3]; exact Or.inl jsonValid_braces
    · rw [if_neg h3]; exact Or.inl (JsonValid_dump _)

theorem taggedArgsJson_good (name : String) (argsText : List Char) :
    JsonValid (taggedArgsJson name argsText) = true ∨
      LooseValid (taggedArgsJson name argsText) = true := by
  rw [taggedArgsJson]
  by_cases h1 : argsText ≠ []
  · rw [if_pos h1]
    split
    · exact Or.inl (JsonValid_dump _)
    · exact Or.inl (JsonValid_dump _)
  · rw [if_neg h1]
    exact Or.inl jsonValid_braces

theorem mkTaggedCall_good (idv : String) (name : String) (argsText : List Char)
    (hn : name ≠ "") : GoodCall (mkTaggedCall idv name argsText) := by
  refine ⟨?_, taggedArgsJson_good name argsText⟩
  rw [mkTaggedCall]
  by_cases h : name = "cat"
  · simp [h]
  · simpa [h] using hn

theorem taggedLoop_good (newId : Nat → String) (t lower : List Char) :
    ∀ (fuel pos k : Nat) (c : ToolCall),
      c ∈ (taggedLoop newId t lower fuel pos k).1 → GoodCall c := by
  intro fuel
  induction fuel with
  | zero => intro pos k c hc; simp [taggedLoop] at hc
  | succ n ih =>
    intro pos k c hc
    rw [taggedLoop] at hc
    split at hc
    · simp at hc
    · split at hc
      · simp at hc
      · split at hc
        · simp at hc
        · split at hc
          · exact ih _ _ _ hc
          · rename_i hname
            simp only [List.mem_cons] at hc
            rcases hc with hc | hc
            · exact hc ▸ mkTaggedCall_good _ _ _ hname
            · exact ih _ _ _ hc

theorem todoLoop_good (newId : Nat → String) (t lower : List Char) :
    ∀ (fuel pos k : Nat) (b : Bool) (c : ToolCall),
      c ∈ (todoLoop newId t lower fuel pos k b).1 → GoodCall c := by
  intro fuel
  induction fuel with
  | zero => intro pos k b c hc; simp [todoLoop] at hc
  | succ n ih =>
    intro pos k b c hc
    rw [todoLoop] at hc
    split at hc
    · simp at hc
    · split at hc
      · simp at hc
      · split at hc
        · exact ih _ _ _ _ hc
        · split at hc
          · simp only [List.mem_cons] at hc
            rcases hc with hc | hc
            · exact hc ▸ ⟨by simp, Or.inl (JsonValid_dump _)⟩
            · exact ih _ _ _ _ hc
          · split at hc
            · exact ih _ _ _ _ hc
            · split at hc
              · simp only [List.mem_cons] at hc
                rcases hc with hc | hc
                · exact hc ▸ ⟨by simp, Or.inl (JsonValid_dump _)⟩
                · exact ih _ _ _ _ hc
              · exact ih _ _ _ _ hc

theorem catLoop_good (newId : Nat → String) (t lower : List Char) :
    ∀ (fuel pos k : Nat) (c : ToolCall),
      c ∈ (catLoop newId t lower fuel pos k).1 → GoodCall c := by
  intro fuel
  induction fuel with
  | zero => intro pos k c hc; simp [catLoop] at hc
  | succ n ih =>
    intro pos k c hc
    rw [catLoop] at hc
    split at hc
    · simp at hc
    · split at hc
      · simp at hc
      · split at hc
        · exact ih _ _ _ hc
        · split at hc
          · exact ih _ _ _ hc
          · split at hc
            · simp only [List.mem_cons] at hc
              rcases hc with hc | hc
              · exact hc ▸ ⟨by simp, Or.inl (JsonValid_dump _)⟩
              · exact ih _ _ _ hc
            · exact ih _ _ _ hc

theorem fallbackScanners_good (newId : Nat → String) (s : String) (k k1 : Nat)
    (cs : List ToolCall) (h : fallbackScanners newId s k = (k1, some cs)) :
    cs ≠ [] ∧ ∀ c ∈ cs, GoodCall c := by
  rw [fallbackScanners] at h
  split at h
  · rename_i heq
    rw [ExtractToolCallsFromTaggedText] at heq
    split at heq
    · exact absurd heq (by simp)
    · rename_i hne
      cases h
      cases heq
      exact ⟨hne, fun c hc => taggedLoop_good newId _ _ _ _ _ c hc⟩
  · rename_i heq1
    split at h
    · rename_i heq
      rw [ExtractToolCallsFromCommandText] at heq
      split at heq
      · exact absurd heq (by simp)
      · rename_i hne
        cases h
        cases heq
        exact ⟨hne, fun c hc => todoLoop_good newId _ _ _ _ _ _ c hc⟩
    · rw [ExtractToolCallsFromCatCommandText] at h
      split at h
      · exact absurd h (by simp)
      · rename_i hne
        cases h
        exact ⟨hne, fun c hc => catLoop_good newId _ _ _ _ _ c hc⟩

theorem adaptedAgentCalls_good (s : String) : ∀ c ∈ adaptedAgentCalls s, GoodCall c := by
  intro c hc
  rw [adaptedAgentCalls] at hc
  rw [List.mem_filter] at hc
  obtain ⟨hmem, hname⟩ := hc
  rw [List.mem_map] at hmem
  obtain ⟨a, _, rfl⟩ := hmem
  exact ⟨by simpa using hname, adaptAgentCall_args_good a⟩

theorem fallback_result (newId : Nat → String) (s : String) (k : Nat) :
    (fallbackScanners newId s k).2 = none ∨
    ∃ cs, (fallbackScanners newId s k).2 = some cs ∧ cs ≠ [] ∧ ∀ c ∈ cs, GoodCall c := by
  cases hf : fallbackScanners newId s k with
  | mk k1 o =>
    cases o with
    | none => exact Or.inl rfl
    | some cs =>
      right
      obtain ⟨hne, hgood⟩ := fallbackScanners_good newId s k k1 cs hf
      exact ⟨cs, rfl, hne, hgood⟩

/-- C1 (corrected).  For every input string, `ParseToolCallsFromAssistantText`
returns either `none` or a nonempty list in which every call has a
nonempty name and an `arguments_json` string the runtime can read back:
strictly valid JSON, or — weaker than the claim as stated — a string
accepted by the loose parse (`ParseJsonLoose`), which a raw string
argument with an embedded JSON object can satisfy without itself being
JSON.  The companion counterexample shows the strict form of the claim
is false. -/
theorem parse_tool_calls_claim (newId : Nat → String) (s : String) (k : Nat) :
    (ParseToolCallsFromAssistantText newId s k).2 = none ∨
    ∃ cs, (ParseToolCallsFromAssistantText newId s k).2 = some cs ∧ cs ≠ [] ∧
      ∀ c ∈ cs, c.name ≠ "" ∧
        (JsonValid c.arguments_json = true ∨ LooseValid c.arguments_json = true) := by
  rw [ParseToolCallsFromAssistantText]
  split
  · rename_i hcond
    right
    refine ⟨adaptedAgentCalls s, rfl, ?_, adaptedAgentCalls_good s⟩
    intro hnil
    exact hcond.2 (by rw [hnil]; rfl)
  · split
    · split
      · rename_i cs heq
        right
        obtain ⟨hne, hgood⟩ := extractToolCallsFromJson_good newId _ _ _ _ heq
        exact ⟨_, rfl, hne, hgood⟩
      · exact fallback_result newId s _
    · exact fallback_result newId s _

/-- The raw arguments string of the C1 counterexample: free text with an
embedded JSON object, which `ParseJsonLoose` accepts but `Json.parse`
rejects. -/
def c1RawArgs : String := "a \x7b\"k\":1\x7d"

/-- An assistant message whose single tool call carries `c1RawArgs` as
its (string) arguments. -/
def c1Input : String :=
  "\x7b\"tool_calls\":[\x7b\"id\":\"x\",\"type\":\"function\",\"function\":\x7b\"name\":\"t\",\"arguments\":\"a \x7b\\\"k\\\":1\x7d\"\x7d\x7d]\x7d"

/-- The parse of `c1Input`. -/
def c1Json : Json :=
  Json.obj [("tool_calls", .arr [.obj
    [("id", .str "x"), ("type", .str "function"),
     ("function", .obj [("name", .str "t"), ("arguments", .str c1RawArgs)])]])]

theorem c1Input_parse : Json.parse c1Input = some c1Json := by
  simp [c1Input, c1Json, c1RawArgs, Json.parse, parseVal, parseMembers, parseElems,
    parseStrBody, parseEscape, skipWs, headIs, dropLit, parseNum, parseNatPart,
    takeDigits, digitsVal, isDigitC, isJsonWs]

/-- Counterexample to claim C1 as stated: on `c1Input` the pipeline
returns one call whose `arguments_json` is kept as the raw string, which
is not a syntactically valid JSON value. -/
theorem parse_tool_calls_counterexample :
    (ParseToolCallsFromAssistantText (fun _ => "id") c1Input 0).2 =
      some [⟨"x", "t", c1RawArgs⟩] ∧ JsonValid c1RawArgs = false := by
  have h3 : Json.parse "\x7b\"k\":1\x7d" = some (.obj [("k", .num 1)]) := by
    simp [Json.parse, parseVal, parseMembers, parseStrBody, skipWs, headIs, dropLit,
      parseNum, parseNatPart, takeDigits, digitsVal, isDigitC, isJsonWs]
  have h2 : Json.parse "a \x7b\"k\":1\x7d" = none := rfl
  have hloose : ParseJsonLoose "a \x7b\"k\":1\x7d" = some (.obj [("k", .num 1)]) := by
    simp [ParseJsonLoose, Trim, trimChars, isCppSpace, ExtractFirstJsonObject,
      findBrace, balScan, h2, h3]
  constructor
  · rw [ParseToolCallsFromAssistantText]
    have hagent : agentParse c1Input 0 = (0, [⟨"x", "function", "t", .str c1RawArgs⟩]) := by
      rw [agentParse, c1Input_parse]
      simp [c1Json, agentParseFromJson, parseFromJsonItems, parseSingleToolCall,
        AgentToolCall.isValid, Json.containsKey, Json.getKey, Json.keyFind, Json.keyMem,
        Json.isStr, Json.asStr, Json.cppEmpty]
    rw [hagent]
    simp [adaptedAgentCalls, hagent, adaptAgentCall, hloose, Json.isStr,
      Json.asStr, Json.isNull, c1RawArgs]
  · simp [JsonValid, c1RawArgs, h2]

/-! ### Workspace confinement (tooling.cpp `NormalizeUnderRoot`)

The filesystem itself is modeled lexically: `weakly_canonical` on a
symlink-free filesystem with an absolute workspace root is lexical
normalization (`lexically_normal`), with the trailing-separator form
simplified away.  Every claim about the gate is stated inside that
model. -/

/-- Model of the file-scope `ToLower`. -/
def ToLower (s : String) : String := String.mk (s.data.map cppToLower)

/-- C-locale hexadecimal digit value. -/
def cppHexVal (c : Char) : Option Nat :=
  if '0' ≤ c ∧ c ≤ '9' then some (c.toNat - 48)
  else if 'a' ≤ c ∧ c ≤ 'f' then some (10 + c.toNat - 97)
  else if 'A' ≤ c ∧ c ≤ 'F' then some (10 + c.toNat - 65)
  else none

/-- Model of `PercentDecode`. -/
def PercentDecode : List Char → List Char
  | [] => []
  | '%' :: a :: b :: rest =>
    match cppHexVal a, cppHexVal b with
    | some ha, some hb => Char.ofNat (16 * ha + hb) :: PercentDecode rest
    | _, _ => '%' :: PercentDecode (a :: b :: rest)
  | c :: rest => c :: PercentDecode rest

/-- Slash-splitting of a path into components. -/
def splitSlashAux : List Char → List Char → List (List Char)
  | [], acc => [acc.reverse]
  | '/' :: cs, acc => acc.reverse :: splitSlashAux cs []
  | c :: cs, acc => splitSlashAux cs (c :: acc)

/-- Lexical `.`/`..`/empty-component normalization over the reversed
accumulator of kept components. -/
def normComponents : List (List Char) → List (List Char) → List (List Char)
  | [], acc => acc.reverse
  | c :: cs, acc =>
    if c = [] ∨ c = ['.'] then normComponents cs acc
    else if c = ['.', '.'] then normComponents cs acc.tail
    else normComponents cs (c :: acc)

/-- The normalized components of a path, the leading `/` implied. -/
def pathComponents (s : String) : List (List Char) :=
  normComponents (splitSlashAux s.data []) []

/-- Slash-joining of components. -/
def joinSlash : List (List Char) → List Char
  | [] => []
  | [c] => c
  | c :: cs => c ++ '/' :: joinSlash cs

/-- The lexical model of `weakly_canonical(...).generic_string()` on an
absolute path of a symlink-free filesystem. -/
def lexNormalize (s : String) : String :=
  String.mk ('/' :: joinSlash (pathComponents s))

/-- The `file://` handling of `NormalizeUnderRoot` (tooling.cpp lines
74-84): scheme detected on the lowercase copy, `localhost/` stripped,
the Windows `/X:/` quirk, then percent-decoding. -/
def normalizeRaw (path_or_uri : String) : String :=
  if "file://".data.isPrefixOf (ToLower path_or_uri).data then
    let r1 := path_or_uri.drop 7
    let r2 := if "localhost/".data.isPrefixOf r1.data then r1.drop 10 else r1
    let r3 := if r2 ≠ "" ∧ headIs '/' r2.data ∧ r2.length ≥ 3 ∧
        isCppAlpha (charAt r2.data 1) = true ∧ charAt r2.data 2 = ':' then
      r2.drop 1 else r2
    String.mk (PercentDecode r3.data)
  else path_or_uri

/-- The root-relative join of `NormalizeUnderRoot` (tooling.cpp line
87). -/
def normalizeJoined (workspace_root path_or_uri : String) : String :=
  if workspace_root ≠ "" ∧ ¬headIs '/' (normalizeRaw path_or_uri).data then
    workspace_root ++ "/" ++ normalizeRaw path_or_uri
  else normalizeRaw path_or_uri

/-- Model of `NormalizeUnderRoot` over the lexical filesystem model:
`.ok` carries the canonical path handed to the tool body, `.error` the
message stored in the ToolResult. -/
def NormalizeUnderRoot (workspace_root path_or_uri : String) : Except String String :=
  if workspace_root ≠ "" then
    if lexNormalize workspace_root = "" then .error "invalid workspace root"
    else if ¬(lexNormalize workspace_root).data.isPrefixOf
        (lexNormalize (normalizeJoined workspace_root path_or_uri)).data then
      .error "path is outside workspace root"
    else .ok (lexNormalize (normalizeJoined workspace_root path_or_uri))
  else .ok (lexNormalize (normalizeJoined workspace_root path_or_uri))

/-- The failure shape shared by the six filesystem tool handlers
(`read`, `write`, `edit`, `glob`, `grep`, `list`): on a gate failure the
ToolResult is `ok = false` with the gate's message (tooling.cpp lines
887-893, 1001-1007, 1076-1082, 1182-1188, 1286-1292, 1421-1427). -/
def fsGate (workspace_root pathValue : String) (r0 : ToolResult) :
    Except ToolResult String :=
  match NormalizeUnderRoot workspace_root pathValue with
  | .error e =>
    let msg := if e = "" then "invalid path" else e
    .error { r0 with ok := false, error := msg, result := ErrorResult msg }
  | .ok canon => .ok canon

/-- The spec's notion of confinement: the canonical root's components
are a prefix of the canonical path's components.  This definition
follows the claim's words, to be compared with the string-prefix test
the code performs. -/
def SpecInsideRoot (root p : String) : Bool :=
  (pathComponents root).isPrefixOf (pathComponents p)

/-- Counterexample to claim C2 as stated: with workspace root `/w`, the
path `/www/x` is not inside the root, yet the gate admits it (and the
`read` tool would read it), because the code compares canonical paths as
strings rather than by components. -/
theorem normalize_under_root_counterexample :
    fsGate "/w" "/www/x" {} = .ok "/www/x" ∧
      SpecInsideRoot "/w" "/www/x" = false := by
  constructor
  · rfl
  · rfl

/-- C2 (corrected).  With a nonempty workspace root, every filesystem
tool's path gate either admits a canonical path that carries the
canonical root as a string prefix — which, as the counterexample shows,
is weaker than being inside the root — or fails with a ToolResult whose
`ok` is false and whose error is exactly `path is outside workspace
root` (or `invalid workspace root` for an empty canonical root). -/
theorem workspace_confinement_claim (root pathVal : String) (r0 : ToolResult)
    (hroot : root ≠ "") :
    (∃ canon, fsGate root pathVal r0 = .ok canon ∧
      (lexNormalize root).data.isPrefixOf canon.data = true) ∨
    (∃ r, fsGate root pathVal r0 = .error r ∧ r.ok = false ∧
      (r.error = "path is outside workspace root" ∨ r.error = "invalid workspace root")) := by
  rw [fsGate, NormalizeUnderRoot, if_pos hroot]
  by_cases h1 : lexNormalize root = ""
  · rw [if_pos h1]
    exact Or.inr ⟨_, rfl, rfl, Or.inr rfl⟩
  · rw [if_neg h1]
    by_cases h2 : ¬(lexNormalize root).data.isPrefixOf
        (lexNormalize (normalizeJoined root pathVal)).data = true
    · rw [if_pos h2]
      exact Or.inr ⟨_, rfl, rfl, Or.inl rfl⟩
    · rw [if_neg h2]
      exact Or.inl ⟨_, rfl, by simpa using h2⟩

/-- Witness for the claim C2 theorem at a concrete input: a relative
path is admitted under the canonical root. -/
theorem workspace_confinement_claim_witness :
    (∃ canon, fsGate "/w" "a.txt" {} = .ok canon ∧
      (lexNormalize "/w").data.isPrefixOf canon.data = true) ∨
    (∃ r, fsGate "/w" "a.txt" {} = .error r ∧ r.ok = false ∧
      (r.error = "path is outside workspace root" ∨
        r.error = "invalid workspace root")) :=
  workspace_confinement_claim "/w" "a.txt" {} (by decide)

/-! ### The orchestrator (openai_router.cpp `RunToolLoop`, `RunPlanner`)

`ChatOnceText`/`FakeModelOnce` draw on a provider or a stub; the model
abstracts the assistant as an oracle `gen : Nat → Option String` giving
the text of the n-th generation of the loop (`none` is a provider
error).  Logging statements have no modeled effect. -/

/-- Model of nlohmann `get&lt;int&gt;` under an integer guard. -/
def Json.asNum : Json → Int
  | .num n => n
  | _ => 0

/-- Model of the `ToolRegistry` protected maps (the optional
`tool_manager_` backend of the extern agent library stays unset in
`BuildDefaultToolRegistry`). -/
structure ToolRegistryModel where
  schemas : List (String × ToolSchema)
  handlers : List (String × (String → Json → ToolResult))

/-- Model of `ToolRegistry::GetSchema`. -/
def ToolRegistryModel.GetSchema (reg : ToolRegistryModel) (n : String) : Option ToolSchema :=
  (reg.schemas.find? fun p => p.1 == n).map Prod.snd

/-- Model of `ToolRegistry::GetHandler`. -/
def ToolRegistryModel.GetHandler (reg : ToolRegistryModel) (n : String) :
    Option (String → Json → ToolResult) :=
  (reg.handlers.find? fun p => p.1 == n).map Prod.snd

/-- Model of `ToolRegistry::HasTool`. -/
def ToolRegistryModel.HasTool (reg : ToolRegistryModel) (n : String) : Bool :=
  (reg.GetSchema n).isSome && (reg.GetHandler n).isSome

/-- Model of the `ToolLoopResult` struct.  `tool_calls_used` exposes the
loop-local C++ counter of the same name for specification; the C++
struct does not store it. -/
structure ToolLoopResult where
  final_text : String := ""
  executed_calls : List ToolCall := []
  results : List ToolResult := []
  steps : Nat := 0
  hit_step_limit : Bool := false
  hit_tool_limit : Bool := false
  used_planner : Bool := false
  planner_failed : Bool := false
  plan_steps : Nat := 0
  plan_rewrites : Nat := 0
  plan : Json := Json.arr []
  tool_calls_used : Nat := 0

/-- Model of `ExtractFinalFromAssistantJson`. -/
def ExtractFinalFromAssistantJson (text : String) : Option String :=
  match ParseJsonLoose text with
  | none => none
  | some j =>
    if ¬j.isObj then none
    else
      let root := opencodeRoot j
      if root.containsKey "final" ∧ (root.getKey "final").isStr then
        some (root.getKey "final").asStr
      else if root.containsKey "content" ∧ (root.getKey "content").isStr then
        some (root.getKey "content").asStr
      else if root.containsKey "text" ∧ (root.getKey "text").isStr then
        some (root.getKey "text").asStr
      else none

/-- Model of `LooksLikePathLike`. -/
def LooksLikePathLike (s : String) : Bool :=
  match s.data with
  | [] => false
  | c :: _ =>
    if s.data.contains '/' || s.data.contains '\\' then true
    else if 2 ≤ s.length ∧ isCppAlpha c = true ∧ charAt s.data 1 = ':' then true
    else if c = '.' ∨ c = '~' then true
    else false

/-- Length of a JSON array. -/
def jsonArrLen : Json → Nat
  | .arr xs => xs.length
  | _ => 0

/-- First element of a JSON array. -/
def jsonArrHead : Json → Json
  | .arr (x :: _) => x
  | _ => .null

/-- Number of members of a JSON object. -/
def jsonObjLen : Json → Nat
  | .obj ms => ms.length
  | _ => 0

/-- First key of a JSON object. -/
def jsonObjFirstKey : Json → String
  | .obj ((k, _) :: _) => k
  | _ => ""

/-- First of the candidate keys declared among the properties. -/
def firstKeyIn (props : Json) : List String → Option String
  | [] => none
  | k :: ks => if props.containsKey k then some k else firstKeyIn props ks

/-- Model of `GuessSingleKeyFromParams`. -/
def GuessSingleKeyFromParams (params : Json) (raw : String) : Option String :=
  if ¬params.isObj then none
  else if ¬(params.containsKey "type" ∧ (params.getKey "type").isStr) then none
  else if (params.getKey "type").asStr ≠ "object" then none
  else if ¬(params.containsKey "properties" ∧ (params.getKey "properties").isObj) then none
  else if params.containsKey "required" ∧ (params.getKey "required").isArr ∧
      jsonArrLen (params.getKey "required") = 1 ∧
      (jsonArrHead (params.getKey "required")).isStr then
    some (jsonArrHead (params.getKey "required")).asStr
  else if jsonObjLen (params.getKey "properties") = 1 then
    some (jsonObjFirstKey (params.getKey "properties"))
  else
    match (if LooksLikePathLike raw then
        firstKeyIn (params.getKey "properties") ["filePath", "path", "uri"]
      else none) with
    | some k => some k
    | none => firstKeyIn (params.getKey "properties") ["command", "text", "input", "content"]

/-- The rejected-call ToolResult shape of the loop (openai_router.cpp
lines 1167-1174, 1184-1191, 1238-1245). -/
def rejectResult (c : ToolCall) (msg : String) : ToolResult :=
  { tool_call_id := c.id, name := c.name, ok := false, error := msg,
    result := ErrorResult msg }

/-- The argument recovery of the loop for one call (openai_router.cpp
lines 1205-1236): loose parse, string promotion against the schema,
trimmed-raw promotion when the parse failed, then alias
normalization. -/
def massageArgs (schema : Option ToolSchema) (c : ToolCall) : Option Json :=
  let j0 := ParseJsonLoose c.arguments_json
  let j1 := match schema, j0 with
    | some sch, some (Json.str raw) =>
      if sch.parameters.isObj ∧ sch.parameters.containsKey "type" ∧
          (sch.parameters.getKey "type").isStr ∧
          (sch.parameters.getKey "type").asStr = "string" then
        some (Json.str raw)
      else
        match GuessSingleKeyFromParams sch.parameters raw with
        | some key => some (Json.obj [(key, Json.str raw)])
        | none => some (Json.str raw)
    | _, _ => j0
  let j2 := match j1 with
    | none =>
      match schema with
      | some sch =>
        if sch.parameters.isObj ∧ sch.parameters.containsKey "type" ∧
            (sch.parameters.getKey "type").isStr ∧
            (sch.parameters.getKey "type").asStr = "string" then
          some (Json.str (Trim c.arguments_json))
        else
          match GuessSingleKeyFromParams sch.parameters (Trim c.arguments_json) with
          | some key => some (Json.obj [(key, Json.str (Trim c.arguments_json))])
          | none => none
      | none => none
    | some j => some j
  match schema, j2 with
  | some sch, some j => if j.isObj then some (NormalizeToolArgsObject sch j) else some j
  | _, j => j

/-- Outcome of the per-call loop: completed with the collected pushes
and the updated counter, or stopped at the tool-call budget. -/
inductive InnerOut where
  | done (ex : List ToolCall) (rs : List ToolResult) (used : Nat)
  | limit (ex : List ToolCall) (rs : List ToolResult) (used : Nat)

/-- The per-call loop of `RunToolLoop` (openai_router.cpp lines
1165-1266): rejected calls are pushed without touching the budget, the
budget is checked before dispatch, and a missing handler is skipped
silently. -/
def toolLoopInner (reg : ToolRegistryModel) (allowed : List String) (maxTC : Nat) :
    List ToolCall → Nat → InnerOut
  | [], used => .done [] [] used
  | c :: rest, used =>
    if allowed ≠ [] ∧ c.name ∉ allowed then
      match toolLoopInner reg allowed maxTC rest used with
      | .done ex rs u => .done (c :: ex) (rejectResult c "tool not allowed" :: rs) u
      | .limit ex rs u => .limit (c :: ex) (rejectResult c "tool not allowed" :: rs) u
    else if ¬reg.HasTool c.name then
      match toolLoopInner reg allowed maxTC rest used with
      | .done ex rs u => .done (c :: ex) (rejectResult c "tool not found" :: rs) u
      | .limit ex rs u => .limit (c :: ex) (rejectResult c "tool not found" :: rs) u
    else if maxTC ≤ used then .limit [] [] used
    else
      match massageArgs (reg.GetSchema c.name) c with
      | none =>
        match toolLoopInner reg allowed maxTC rest used with
        | .done ex rs u =>
          .done (c :: ex) (rejectResult c "invalid tool arguments json" :: rs) u
        | .limit ex rs u =>
          .limit (c :: ex) (rejectResult c "invalid tool arguments json" :: rs) u
      | some jargs =>
        match reg.GetHandler c.name with
        | none => toolLoopInner reg allowed maxTC rest used
        | some h =>
          match toolLoopInner reg allowed maxTC rest (used + 1) with
          | .done ex rs u => .done (c :: ex) (h c.id jargs :: rs) u
          | .limit ex rs u => .limit (c :: ex) (h c.id jargs :: rs) u

/-- The step loop of `RunToolLoop` (openai_router.cpp lines 1142-1281),
fuel = remaining steps, `lastSteps` the value `out.steps` holds when the
loop falls through. -/
def runToolLoopGo (newId : Nat → String) (gen : Nat → Option String)
    (allowed : List String) (reg : ToolRegistryModel) (maxTC : Nat) :
    Nat → Nat → Nat → Nat → List ToolCall → List ToolResult → Nat → ToolLoopResult
  | 0, _, used, _, execs, results, lastSteps =>
    { final_text := "tool loop exceeded max steps", hit_step_limit := true,
      steps := lastSteps, executed_calls := execs, results := results,
      tool_calls_used := used }
  | fuel + 1, idx, used, k, execs, results, _ =>
    match gen idx with
    | none =>
      { final_text := "", steps := idx + 1, executed_calls := execs,
        results := results, tool_calls_used := used }
    | some text =>
      match ParseToolCallsFromAssistantText newId text k with
      | (k1, some calls) =>
        match toolLoopInner reg allowed maxTC calls used with
        | .limit ex rs u =>
          { final_text := "tool call limit exceeded", hit_tool_limit := true,
            steps := idx + 1, executed_calls := execs ++ ex, results := results ++ rs,
            tool_calls_used := u }
        | .done ex rs u =>
          runToolLoopGo newId gen allowed reg maxTC fuel (idx + 1) u k1
            (execs ++ ex) (results ++ rs) (idx + 1)
      | (k1, none) =>
        match ExtractFinalFromAssistantJson text with
        | some f =>
          { final_text := f, steps := idx + 1, executed_calls := execs,
            results := results, tool_calls_used := used }
        | none =>
          { final_text := text, steps := idx + 1, executed_calls := execs,
            results := results, tool_calls_used := used }

/-- The `if (max_steps <= 0) max_steps = 1` clamp. -/
def clampPos (i : Int) : Nat := if i ≤ 0 then 1 else i.toNat

/-- The `if (max_tool_calls < 0) max_tool_calls = 0` clamp. -/
def clampNonneg (i : Int) : Nat := if i < 0 then 0 else i.toNat

/-- Model of `RunToolLoop` with the entry clamps of the C++ ints
(openai_router.cpp lines 1138-1139). -/
def RunToolLoop (newId : Nat → String) (gen : Nat → Option String)
    (allowed : List String) (reg : ToolRegistryModel)
    (max_steps max_tool_calls : Int) (k : Nat) : ToolLoopResult :=
  runToolLoopGo newId gen allowed reg (clampNonneg max_tool_calls)
    (clampPos max_steps) 0 0 k [] [] 0

/-- The request-body defaults (openai_router.cpp lines 1449-1450). -/
def requestMaxSteps (j : Json) : Int :=
  if j.containsKey "max_steps" ∧ (j.getKey "max_steps").isNum then
    (j.getKey "max_steps").asNum
  else 6

/-- The request-body defaults (openai_router.cpp lines 1451-1454). -/
def requestMaxToolCalls (j : Json) : Int :=
  if j.containsKey "max_tool_calls" ∧ (j.getKey "max_tool_calls").isNum then
    (j.getKey "max_tool_calls").asNum
  else 16

/-! ### The planner (openai_router.cpp `RunPlanner`) -/

/-- Model of the `PlannerPlanStep` struct. -/
structure PlannerPlanStep where
  name : String
  arguments : Json

/-- The per-element filter of `ParsePlannerPlan` (openai_router.cpp
lines 855-866). -/
def plannerSteps : List Json → List PlannerPlanStep
  | [] => []
  | s :: ss =>
    if s.isObj ∧ s.containsKey "name" ∧ (s.getKey "name").isStr then
      if (s.getKey "name").asStr = "" then plannerSteps ss
      else
        ⟨(s.getKey "name").asStr,
          if s.containsKey "arguments" ∧ (s.getKey "arguments").isObj then
            s.getKey "arguments"
          else Json.obj []⟩ :: plannerSteps ss
    else plannerSteps ss

/-- Model of `ParsePlannerPlan`. -/
def ParsePlannerPlan (assistant_text : String) : Option (List PlannerPlanStep) :=
  match ParseJsonLoose assistant_text with
  | none => none
  | some j =>
    if ¬j.isObj then none
    else if j.containsKey "final" ∧ (j.getKey "final").isStr then some []
    else if ¬(j.containsKey "plan" ∧ (j.getKey "plan").isArr) then none
    else
      match j.getKey "plan" with
      | .arr ss => some (plannerSteps ss)
      | _ => none

/-- The plan validation pass (openai_router.cpp lines 991-1011): the
first rejection message, if any. -/
def plannerValidate (allowed : List String) (reg : ToolRegistryModel) :
    List PlannerPlanStep → Option String
  | [] => none
  | s :: ss =>
    if allowed ≠ [] ∧ s.name ∉ allowed then some ("tool not allowed: " ++ s.name)
    else
      match reg.GetSchema s.name with
      | none => some ("tool not found: " ++ s.name)
      | some sch =>
        match ValidateSchemaLoose sch.parameters s.arguments with
        | some e => some ("invalid arguments for " ++ s.name ++ ": " ++ e)
        | none => plannerValidate allowed reg ss

/-- Outcome of the plan attempt loop: an early-returned result, or a
validated plan with the rewrite count and the last assistant text. -/
inductive PlanOutcome where
  | failed (r : ToolLoopResult)
  | planned (steps : List PlannerPlanStep) (rewrites : Nat)

/-- The plan attempt loop of `RunPlanner` (openai_router.cpp lines
965-1029), fuel = remaining attempts; the fuel-exhausted case is the
post-loop `if (!plan)` fallback.  The oracle index is the attempt
number. -/
def plannerAttempts (gen : Nat → Option String) (allowed : List String)
    (reg : ToolRegistryModel) (maxRw : Nat) :
    Nat → Nat → Nat → String → PlanOutcome
  | 0, _, _, lastText =>
    .failed { used_planner := true, planner_failed := true, final_text := lastText,
              steps := 1 }
  | fuel + 1, attempt, rewrites, _ =>
    match gen attempt with
    | none => .failed { used_planner := true, planner_failed := true }
    | some plan_text =>
      match ExtractFinalFromAssistantJson plan_text with
      | some f =>
        .failed { used_planner := true, final_text := f, steps := 1, plan_steps := 0 }
      | none =>
        match ParsePlannerPlan plan_text with
        | none =>
          if attempt = maxRw then
            .failed { used_planner := true, planner_failed := true,
                      final_text := plan_text, steps := 1 }
          else plannerAttempts gen allowed reg maxRw fuel (attempt + 1) rewrites plan_text
        | some plan =>
          match plannerValidate allowed reg plan with
          | none => .planned plan rewrites
          | some why =>
            if attempt = maxRw then
              .failed { used_planner := true, planner_failed := true,
                        final_text := why, steps := 1 }
            else
              plannerAttempts gen allowed reg maxRw fuel (attempt + 1) (attempt + 1)
                plan_text

/-- The plan execution loop (openai_router.cpp lines 1041-1096): every
iteration pushes one call and one result and counts one budget unit,
rejected or not; the budget is checked at the top, returning
`steps = i + 1` when it trips. -/
def plannerExec (allowed : List String) (reg : ToolRegistryModel) (maxTC : Nat) :
    List PlannerPlanStep → Nat → Nat → List ToolCall × List ToolResult × Option Nat
  | [], _, _ => ([], [], none)
  | s :: ss, i, used =>
    if maxTC ≤ used then ([], [], some (i + 1))
    else
      let c : ToolCall := ⟨"plan_" ++ toString (i + 1), s.name, s.arguments.dump⟩
      if allowed ≠ [] ∧ s.name ∉ allowed then
        match plannerExec allowed reg maxTC ss (i + 1) (used + 1) with
        | (ex, rs, st) => (c :: ex, rejectResult c "tool not allowed" :: rs, st)
      else
        match reg.GetHandler s.name with
        | none =>
          match plannerExec allowed reg maxTC ss (i + 1) (used + 1) with
          | (ex, rs, st) => (c :: ex, rejectResult c "tool not found" :: rs, st)
        | some h =>
          match plannerExec allowed reg maxTC ss (i + 1) (used + 1) with
          | (ex, rs, st) => (c :: ex, h c.id s.arguments :: rs, st)

/-- The serialized plan stored in the trace (openai_router.cpp lines
1034-1035). -/
def planToJson (plan : List PlannerPlanStep) : Json :=
  Json.arr (plan.map fun s => Json.obj [("name", .str s.name), ("arguments", s.arguments)])

/-- Model of `RunPlanner` with the entry clamps (openai_router.cpp lines
953-955).  The oracle indices 0..max_plan_rewrites are the attempt
generations and `maxRw + 1` the final summary generation. -/
def RunPlanner (gen : Nat → Option String) (allowed : List String)
    (reg : ToolRegistryModel)
    (max_plan_steps max_plan_rewrites max_tool_calls : Int) : ToolLoopResult :=
  match plannerAttempts gen allowed reg (clampNonneg max_plan_rewrites)
      (clampNonneg max_plan_rewrites + 1) 0 0 "" with
  | .failed r => r
  | .planned plan0 rewrites =>
    match plannerExec allowed reg (clampNonneg max_tool_calls)
        (plan0.take (clampPos max_plan_steps)) 0 0 with
    | (ex, rs, some stepsHit) =>
      { used_planner := true, plan_steps := (plan0.take (clampPos max_plan_steps)).length,
        plan_rewrites := rewrites, plan := planToJson (plan0.take (clampPos max_plan_steps)),
        executed_calls := ex, results := rs, hit_tool_limit := true,
        final_text := "tool call limit exceeded", steps := stepsHit }
    | (ex, rs, none) =>
      { used_planner := true, plan_steps := (plan0.take (clampPos max_plan_steps)).length,
        plan_rewrites := rewrites, plan := planToJson (plan0.take (clampPos max_plan_steps)),
        executed_calls := ex, results := rs, steps := 2,
        final_text := (ExtractFinalFromAssistantJson ((gen (clampNonneg max_plan_rewrites + 1)).getD "")).getD
          ((gen (clampNonneg max_plan_rewrites + 1)).getD "") }

/-! ### Budget and step bounds of the orchestrator -/

/-- The counter carried by an inner-loop outcome. -/
def InnerOut.used : InnerOut → Nat
  | .done _ _ u => u
  | .limit _ _ u => u

theorem toolLoopInner_used (reg : ToolRegistryModel) (allowed : List String)
    (maxTC : Nat) : ∀ (calls : List ToolCall) (used : Nat), used ≤ maxTC →
    (toolLoopInner reg allowed maxTC calls used).used ≤ maxTC := by
  intro calls
  induction calls with
  | nil => intro used h; simpa [toolLoopInner, InnerOut.used] using h
  | cons c rest ih =>
    intro used h
    rw [toolLoopInner]
    split
    · split
      · rename_i heq
        have := ih used h
        rw [heq] at this
        simpa [InnerOut.used] using this
      · rename_i heq
        have := ih used h
        rw [heq] at this
        simpa [InnerOut.used] using this
    · split
      · split
        · rename_i heq
          have := ih used h
          rw [heq] at this
          simpa [InnerOut.used] using this
        · rename_i heq
          have := ih used h
          rw [heq] at this
          simpa [InnerOut.used] using this
      · split
        · simpa [InnerOut.used] using h
        · rename_i hlt
          split
          · split
            · rename_i heq
              have := ih used h
              rw [heq] at this
              simpa [InnerOut.used] using this
            · rename_i heq
              have := ih used h
              rw [heq] at this
              simpa [InnerOut.used] using this
          · split
            · exact ih used h
            · have hle : used + 1 ≤ maxTC := by omega
              split
              · rename_i heq
                have := ih (used + 1) hle
                rw [heq] at this
                simpa [InnerOut.used] using this
              · rename_i heq
                have := ih (used + 1) hle
                rw [heq] at this
                simpa [InnerOut.used] using this

theorem runToolLoopGo_steps (newId : Nat → String) (gen : Nat → Option String)
    (allowed : List String) (reg : ToolRegistryModel) (maxTC : Nat) :
    ∀ (fuel idx used k : Nat) (ex : List ToolCall) (rs : List ToolResult) (ls : Nat),
      ls ≤ idx →
      (runToolLoopGo newId gen allowed reg maxTC fuel idx used k ex rs ls).steps ≤
        idx + fuel := by
  intro fuel
  induction fuel with
  | zero => intro idx used k ex rs ls h; simpa [runToolLoopGo] using h
  | succ n ih =>
    intro idx used k ex rs ls h
    rw [runToolLoopGo]
    split
    · simp
    · split
      · split
        · simp
        · exact Nat.le_trans (ih (idx + 1) _ _ _ _ (idx + 1) (Nat.le_refl _)) (by omega)
      · split
        · simp
        · simp

theorem runToolLoopGo_used (newId : Nat → String) (gen : Nat → Option String)
    (allowed : List String) (reg : ToolRegistryModel) (maxTC : Nat) :
    ∀ (fuel idx used k : Nat) (ex : List ToolCall) (rs : List ToolResult) (ls : Nat),
      used ≤ maxTC →
      (runToolLoopGo newId gen allowed reg maxTC fuel idx used k ex rs ls).tool_calls_used ≤
        maxTC := by
  intro fuel
  induction fuel with
  | zero => intro idx used k ex rs ls h; simpa [runToolLoopGo] using h
  | succ n ih =>
    intro idx used k ex rs ls h
    rw [runToolLoopGo]
    split
    · simpa using h
    · split
      · rename_i k1 calls heqP
        split
        · rename_i ex2 rs2 u2 heqI
          have hu := toolLoopInner_used reg allowed maxTC calls used h
          rw [heqI] at hu
          simpa [InnerOut.used] using hu
        · rename_i ex2 rs2 u2 heqI
          have hu := toolLoopInner_used reg allowed maxTC calls used h
          rw [heqI] at hu
          exact ih _ _ _ _ _ _ (by simpa [InnerOut.used] using hu)
      · split
        · simpa using h
        · simpa using h

theorem runToolLoopGo_flags (newId : Nat → String) (gen : Nat → Option String)
    (allowed : List String) (reg : ToolRegistryModel) (maxTC : Nat) :
    ∀ (fuel idx used k : Nat) (ex : List ToolCall) (rs : List ToolResult) (ls : Nat),
      ((runToolLoopGo newId gen allowed reg maxTC fuel idx used k ex rs ls).hit_step_limit =
          true →
        (runToolLoopGo newId gen allowed reg maxTC fuel idx used k ex rs ls).final_text =
          "tool loop exceeded max steps") ∧
      ((runToolLoopGo newId gen allowed reg maxTC fuel idx used k ex rs ls).hit_tool_limit =
          true →
        (runToolLoopGo newId gen allowed reg maxTC fuel idx used k ex rs ls).final_text =
          "tool call limit exceeded") := by
  intro fuel
  induction fuel with
  | zero => intro idx used k ex rs ls; simp [runToolLoopGo]
  | succ n ih =>
    intro idx used k ex rs ls
    rw [runToolLoopGo]
    split
    · simp
    · split
      · split
        · simp
        · exact ih _ _ _ _ _ _
      · split
        · simp
        · simp

theorem plannerExec_bounds (allowed : List String) (reg : ToolRegistryModel)
    (maxTC : Nat) : ∀ (ss : List PlannerPlanStep) (i : Nat), i ≤ maxTC →
    (plannerExec allowed reg maxTC ss i i).1.length ≤ maxTC - i ∧
    ∀ st, (plannerExec allowed reg maxTC ss i i).2.2 = some st → st ≤ maxTC + 1 := by
  intro ss
  induction ss with
  | nil => intro i h; simp [plannerExec]
  | cons s ss ih =>
    intro i h
    rw [plannerExec]
    split
    · rename_i hle
      refine ⟨by simp, ?_⟩
      intro st hst
      simp only [] at hst
      cases hst
      omega
    · rename_i hgt
      have hi1 : i + 1 ≤ maxTC := by omega
      split
      · split
        rename_i ex rs st heq
        have := ih (i + 1) hi1
        rw [heq] at this
        refine ⟨by simpa using Nat.le_trans (Nat.succ_le_succ this.1) (by omega), ?_⟩
        intro s2 hs2
        simp only [] at hs2
        exact this.2 s2 hs2
      · split
        · split
          rename_i ex rs st heq
          have := ih (i + 1) hi1
          rw [heq] at this
          refine ⟨by simpa using Nat.le_trans (Nat.succ_le_succ this.1) (by omega), ?_⟩
          intro s2 hs2
          simp only [] at hs2
          exact this.2 s2 hs2
        · split
          rename_i ex rs st heq
          have := ih (i + 1) hi1
          rw [heq] at this
          refine ⟨by simpa using Nat.le_trans (Nat.succ_le_succ this.1) (by omega), ?_⟩
          intro s2 hs2
          simp only [] at hs2
          exact this.2 s2 hs2

theorem plannerAttempts_failed (gen : Nat → Option String) (allowed : List String)
    (reg : ToolRegistryModel) (maxRw : Nat) :
    ∀ (fuel attempt rewrites : Nat) (lastText : String) (r : ToolLoopResult),
      plannerAttempts gen allowed reg maxRw fuel attempt rewrites lastText = .failed r →
      r.steps ≤ 1 ∧ r.executed_calls = [] := by
  intro fuel
  induction fuel with
  | zero =>
    intro attempt rewrites lastText r h
    rw [plannerAttempts] at h
    cases h
    exact ⟨Nat.le_refl _, rfl⟩
  | succ n ih =>
    intro attempt rewrites lastText r h
    rw [plannerAttempts] at h
    split at h
    · cases h; exact ⟨by simp, rfl⟩
    · split at h
      · cases h; exact ⟨by simp, rfl⟩
      · split at h
        · split at h
          · cases h; exact ⟨by simp, rfl⟩
          · exact ih _ _ _ _ h
        · split at h
          · exact absurd h (by simp)
          · split at h
            · cases h; exact ⟨by simp, rfl⟩
            · exact ih _ _ _ _ h

/-- C3 (corrected).  The bounds that do hold after a loop returns: the
direct loop's steps stay within the clamped `max_steps` and its internal
budget counter within the clamped `max_tool_calls`; the planner executes
at most `max_tool_calls` plan steps and its step counter stays within
`max 2 (max_tool_calls + 1)`.  As stated the claim is false — the
counterexample shows `executed_calls` of the direct loop exceeding
`max_tool_calls` (rejected calls are recorded without a budget check)
and a planner run with `steps = 3 > 2`. -/
theorem tool_budget_claim :
    ∀ (newId : Nat → String) (gen : Nat → Option String) (allowed : List String)
      (reg : ToolRegistryModel) (max_steps max_tool_calls : Int) (k : Nat),
      (RunToolLoop newId gen allowed reg max_steps max_tool_calls k).steps ≤
        clampPos max_steps ∧
      (RunToolLoop newId gen allowed reg max_steps max_tool_calls k).tool_calls_used ≤
        clampNonneg max_tool_calls ∧
      ∀ (gen2 : Nat → Option String) (mps mrw : Int),
        (RunPlanner gen2 allowed reg mps mrw max_tool_calls).executed_calls.length ≤
          clampNonneg max_tool_calls ∧
        (RunPlanner gen2 allowed reg mps mrw max_tool_calls).steps ≤
          max 2 (clampNonneg max_tool_calls + 1) := by
  intro newId gen allowed reg max_steps max_tool_calls k
  refine ⟨?_, ?_, ?_⟩
  · rw [RunToolLoop]
    simpa using runToolLoopGo_steps newId gen allowed reg _ (clampPos max_steps)
      0 0 k [] [] 0 (Nat.le_refl 0)
  · rw [RunToolLoop]
    exact runToolLoopGo_used newId gen allowed reg _ (clampPos max_steps)
      0 0 k [] [] 0 (Nat.zero_le _)
  · intro gen2 mps mrw
    rw [RunPlanner]
    split
    · rename_i r heqA
      obtain ⟨hs, he⟩ := plannerAttempts_failed gen2 allowed reg _ _ _ _ _ r heqA
      constructor
      · rw [he]; simp
      · omega
    · rename_i plan0 rewrites heqA
      split
      · rename_i ex rs st heqE
        have hb := plannerExec_bounds allowed reg (clampNonneg max_tool_calls)
          (plan0.take (clampPos mps)) 0 (Nat.zero_le _)
        rw [heqE] at hb
        refine ⟨by simpa using hb.1, ?_⟩
        have := hb.2 st rfl
        simp only []
        omega
      · rename_i ex rs heqE
        have hb := plannerExec_bounds allowed reg (clampNonneg max_tool_calls)
          (plan0.take (clampPos mps)) 0 (Nat.zero_le _)
        rw [heqE] at hb
        refine ⟨by simpa using hb.1, by simp⟩

/-- The assistant text of the C3 counterexample for the direct loop: one
call to a tool that is not in the allowed set. -/
def c3Text : String :=
  "\x7b\"tool_calls\":[\x7b\"name\":\"zzz\",\"arguments\":\x7b\x7d\x7d]\x7d"

/-- The planner text of the C3 counterexample: a three-step plan. -/
def c3Plan : String :=
  "\x7b\"plan\":[\x7b\"name\":\"t\"\x7d,\x7b\"name\":\"t\"\x7d,\x7b\"name\":\"t\"\x7d]\x7d"

/-- A registry holding one tool `t` whose schema carries no parameter
object. -/
def c3Reg : ToolRegistryModel :=
  { schemas := [("t", { name := "t" })],
    handlers := [("t", fun id _ =>
      { tool_call_id := id, name := "t", result := Json.obj [("ok", .bool true)] })] }

/-- Counterexample to claim C3 as stated: with `max_tool_calls = 0` the
direct loop records one executed call (the rejected `zzz` call is pushed
without a budget check), and with `max_tool_calls = 2` the planner
executing a three-step plan returns `steps = 3 > 2`. -/
theorem tool_budget_counterexample :
    (RunToolLoop (fun _ => "id") (fun _ => some c3Text) ["read"] ⟨[], []⟩
        1 0 0).executed_calls.length = 1 ∧
    (RunPlanner (fun _ => some c3Plan) [] c3Reg 3 0 2).steps = 3 := by
  constructor
  · have hparse : Json.parse c3Text = some (Json.obj [("tool_calls", .arr
        [.obj [("name", .str "zzz"), ("arguments", .obj [])]])]) := by
      simp [c3Text, Json.parse, parseVal, parseMembers, parseElems, parseStrBody,
        skipWs, headIs, dropLit, parseNum, parseNatPart, takeDigits, digitsVal,
        isDigitC, isJsonWs]
    have hagent : agentParse c3Text 0 =
        (1, [⟨"call_1", "function", "zzz", Json.obj []⟩]) := by
      rw [agentParse, hparse]
      rfl
    have hdump : (Json.obj []).dump = "{}" := by
      simp [Json.dump, dumpChars, dumpMemberSep]
    have hpipe : ParseToolCallsFromAssistantText (fun _ => "id") c3Text 0 =
        (0, some [⟨"call_1", "zzz", "{}"⟩]) := by
      rw [ParseToolCallsFromAssistantText, adaptedAgentCalls, hagent]
      simp [adaptAgentCall, hdump, Json.isStr, Json.isNull]
    rw [RunToolLoop, show clampNonneg (0 : Int) = 0 from rfl,
      show clampPos (1 : Int) = 0 + 1 from rfl, runToolLoopGo]
    simp only [hpipe]
    rfl
  · have hparse : Json.parse c3Plan = some (Json.obj [("plan", .arr
        [.obj [("name", .str "t")], .obj [("name", .str "t")],
         .obj [("name", .str "t")]])]) := by
      simp [c3Plan, Json.parse, parseVal, parseMembers, parseElems, parseStrBody,
        skipWs, headIs, dropLit, parseNum, parseNatPart, takeDigits, digitsVal,
        isDigitC, isJsonWs]
    have hloose : ParseJsonLoose c3Plan = some (Json.obj [("plan", .arr
        [.obj [("name", .str "t")], .obj [("name", .str "t")],
         .obj [("name", .str "t")]])]) := by
      rw [ParseJsonLoose]
      rw [if_neg (by decide)]
      rw [show Trim c3Plan = c3Plan from rfl, hparse]
    have hplan : ParsePlannerPlan c3Plan =
        some [⟨"t", Json.obj []⟩, ⟨"t", Json.obj []⟩, ⟨"t", Json.obj []⟩] := by
      rw [ParsePlannerPlan, hloose]
      simp [plannerSteps, Json.containsKey, Json.getKey, Json.keyFind, Json.keyMem,
        Json.isObj, Json.isStr, Json.isArr, Json.asStr]
    have hfin : ExtractFinalFromAssistantJson c3Plan = none := by
      rw [ExtractFinalFromAssistantJson, hloose]
      simp [opencodeRoot, Json.containsKey, Json.getKey, Json.keyFind, Json.keyMem,
        Json.isObj, Json.isStr]
    rw [RunPlanner, show clampNonneg (0 : Int) = 0 from rfl,
      show clampNonneg (2 : Int) = 2 from rfl, show clampPos (3 : Int) = 3 from rfl,
      plannerAttempts]
    simp only [hfin, hplan]
    rfl

/-- C5 (confirmed).  The request defaults are `max_steps = 6` and
`max_tool_calls = 16`, and whenever the direct loop reports a step or
tool budget hit its final text is exactly the documented sentence; the
loop function is total and returns a `ToolLoopResult` (never an HTTP
error) by construction. -/
theorem tool_loop_defaults_claim :
    (∀ j : Json, j.containsKey "max_steps" = false → requestMaxSteps j = 6) ∧
    (∀ j : Json, j.containsKey "max_tool_calls" = false → requestMaxToolCalls j = 16) ∧
    ∀ (newId : Nat → String) (gen : Nat → Option String) (allowed : List String)
      (reg : ToolRegistryModel) (ms mtc : Int) (k : Nat),
      ((RunToolLoop newId gen allowed reg ms mtc k).hit_step_limit = true →
        (RunToolLoop newId gen allowed reg ms mtc k).final_text =
          "tool loop exceeded max steps") ∧
      ((RunToolLoop newId gen allowed reg ms mtc k).hit_tool_limit = true →
        (RunToolLoop newId gen allowed reg ms mtc k).final_text =
          "tool call limit exceeded") := by
  refine ⟨?_, ?_, ?_⟩
  · intro j h
    rw [requestMaxSteps, if_neg (by simp [h])]
  · intro j h
    rw [requestMaxToolCalls, if_neg (by simp [h])]
  · intro newId gen allowed reg ms mtc k
    rw [RunToolLoop]
    exact runToolLoopGo_flags newId gen allowed reg _ _ _ _ _ _ _ _

end LocalAiRuntime
